import Mathlib

/-!
Verification of the Buenaventura logistics program (`src/distribucion.c`, with the
small `src/arbol.c` BST program), against its natural-language specification.

The program keeps perishable-goods lots in an AVL tree keyed by expiry date
(`fecha_vencimiento`, an `int` in YYYYMMDD form); each tree node owns a FIFO
queue of pending dispatch orders and persists the whole structure to a binary
file.  We embed the C code shallowly:

* C strings (the `char[64]` buffers filled by `strncpy`) are modelled as the
  byte list of their contents up to the terminating NUL, `List Nat`;
* the `Node` structure becomes the inductive `Node` (child pointers become
  subtrees, the FIFO queue becomes a `List Order` whose head is
  `cabeza_pedidos`; the `tail` pointer is the last cell and is modelled
  explicitly where the code manipulates it, see `cancel_order_in_node`);
* the binary file written by `guardar_arbol` / read by `cargar_arbol` is a
  byte list (`List Nat`, each entry < 256), with `int` fields in little-endian
  two's-complement form as on the target platform;
* in-place pointer mutation becomes functional update.
-/

/-- One dispatch request in a node's FIFO queue (C struct `Order`).
`nombre_destino` holds the bytes of the NUL-terminated destination string. -/
structure Order where
  nombre_destino : List Nat
  cantidad_solicitada : Int
deriving DecidableEq, Repr

/-- One lot of the AVL tree (C struct `Node`).  `cabeza_pedidos` lists the FIFO
queue from head to tail; the C `tail` pointer always designates the last cell
of that list.  `height` is the stored AVL height field. -/
inductive Node where
  | nil : Node
  | node (fecha_vencimiento : Int) (producto : List Nat) (stock_total : Int)
      (cabeza_pedidos : List Order) (left : Node) (right : Node) (height : Nat) : Node
deriving DecidableEq, Repr

/-- C `height(Node*)`: stored height, 0 for NULL. -/
def heightT : Node → Nat
  | .nil => 0
  | .node _ _ _ _ _ _ h => h

/-- C `getBalance`: height(left) - height(right), 0 for NULL. -/
def getBalance : Node → Int
  | .nil => 0
  | .node _ _ _ _ l r _ => (heightT l : Int) - (heightT r : Int)

/-- The effect of `strncpy(dst, src, 63)` followed by `dst[63] = 0`: the stored
C string is the source up to its first NUL, truncated to 63 bytes. -/
def strncpy63 (s : List Nat) : List Nat :=
  (s.takeWhile (fun b => b ≠ 0)).take 63

/-- C `newNode`: fresh lot with empty queue and height 1. -/
def newNode (fecha : Int) (producto : List Nat) (stock : Int) : Node :=
  .node fecha (strncpy63 producto) stock [] .nil .nil 1

/-- C `enqueue_order`: append one order (its destination copied by
`strncpy`) at the tail of the FIFO queue. -/
def enqueue_order (q : List Order) (destino : List Nat) (cantidad : Int) : List Order :=
  q ++ [⟨strncpy63 destino, cantidad⟩]

/-- C `count_orders`. -/
def count_orders (q : List Order) : Nat := q.length

/-- C `rightRotate` (case LL).  The C code dereferences `y->left`; that branch
is only ever taken when the left child exists, so the other shapes are mapped
to the identity. -/
def rightRotate : Node → Node
  | .node fy py sy qy (.node fx px sx qx t1 t2 _hx) t3 _ =>
      let y := Node.node fy py sy qy t2 t3 (max (heightT t2) (heightT t3) + 1)
      Node.node fx px sx qx t1 y (max (heightT t1) (heightT y) + 1)
  | t => t

/-- C `leftRotate` (case RR); mirror of `rightRotate`. -/
def leftRotate : Node → Node
  | .node fx px sx qx t1 (.node fy py sy qy t2 t3 _hy) _ =>
      let x := Node.node fx px sx qx t1 t2 (max (heightT t1) (heightT t2) + 1)
      Node.node fy py sy qy x t3 (max (heightT x) (heightT t3) + 1)
  | t => t

/-- Root key of a node; the 0 default stands for the C NULL dereference that
can never be reached on the paths where the code reads it. -/
def keyD : Node → Int
  | .nil => 0
  | .node f _ _ _ _ _ _ => f

/-- Lines 437-468 of `insertAVL`: recompute the height, read the balance
factor, and apply the four insertion rebalancing cases, whose guards compare
the inserted key with the child's key exactly as the C does. -/
def insFix (fecha : Int) : Node → Node
  | .nil => .nil
  | .node f p s q l r _ =>
      let h' := 1 + max (heightT l) (heightT r)
      let balance : Int := (heightT l : Int) - (heightT r : Int)
      if 1 < balance ∧ fecha < keyD l then rightRotate (.node f p s q l r h')
      else if balance < -1 ∧ keyD r < fecha then leftRotate (.node f p s q l r h')
      else if 1 < balance ∧ keyD l < fecha then
        rightRotate (.node f p s q (leftRotate l) r h')
      else if balance < -1 ∧ fecha < keyD r then
        leftRotate (.node f p s q l (rightRotate r) h')
      else .node f p s q l r h'

/-- C `insertAVL`.  The boolean records whether the duplicate-key branch was
taken (the C prints "ERROR: Ya existe un lote..." there and returns the node
unchanged, skipping the rebalancing of that node). -/
def insertAVL : Node → Int → List Nat → Int → Node × Bool
  | .nil, fecha, producto, stock => (newNode fecha producto stock, false)
  | .node f p s q l r h, fecha, producto, stock =>
      if fecha < f then
        let res := insertAVL l fecha producto stock
        (insFix fecha (.node f p s q res.1 r h), res.2)
      else if f < fecha then
        let res := insertAVL r fecha producto stock
        (insFix fecha (.node f p s q l res.1 h), res.2)
      else
        (.node f p s q l r h, true)

/-- C `searchNode`: BST descent; `none` models the NULL (not found) result. -/
def searchNode : Node → Int → Option Node
  | .nil, _ => none
  | .node f p s q l r h, fecha =>
      if fecha = f then some (.node f p s q l r h)
      else if fecha < f then searchNode l fecha
      else searchNode r fecha

/-- C `minValueNode`: descend to the leftmost node. -/
def minValueNode : Node → Node
  | .nil => .nil
  | .node f p s q l r h =>
      match l with
      | .nil => .node f p s q .nil r h
      | .node _ _ _ _ _ _ _ => minValueNode l

/-- Field reads through the `minValueNode` result pointer. -/
def prodD : Node → List Nat
  | .nil => []
  | .node _ p _ _ _ _ _ => p

def stockD : Node → Int
  | .nil => 0
  | .node _ _ s _ _ _ _ => s

def ordersD : Node → List Order
  | .nil => []
  | .node _ _ _ q _ _ _ => q

/-- Lines 590-613 of `deleteNode`: recompute the height and apply the four
deletion rebalancing cases, keyed off the child's own balance factor. -/
def delFix : Node → Node
  | .nil => .nil
  | .node f p s q l r _ =>
      let h' := 1 + max (heightT l) (heightT r)
      let balance : Int := (heightT l : Int) - (heightT r : Int)
      if 1 < balance ∧ 0 ≤ getBalance l then rightRotate (.node f p s q l r h')
      else if 1 < balance ∧ getBalance l < 0 then
        rightRotate (.node f p s q (leftRotate l) r h')
      else if balance < -1 ∧ getBalance r ≤ 0 then leftRotate (.node f p s q l r h')
      else if balance < -1 ∧ 0 < getBalance r then
        leftRotate (.node f p s q l (rightRotate r) h')
      else .node f p s q l r h'

/-- The clone loop of `deleteNode`'s two-children case: re-enqueue every order
of the successor, by value. -/
def cloneOrders (src : List Order) : List Order :=
  src.foldl (fun acc o => enqueue_order acc o.nombre_destino o.cantidad_solicitada) []

/-- C `deleteNode` (value semantics; the freeing discipline is modelled
separately by `deleteNodeFrees`).  Zero children: return NULL.  One child: the
C copies every field of the child into the current node, which as a value is
the child itself.  Two children: copy key/product/stock of the in-order
successor, clone its queue, and delete the successor from the right subtree;
then rebalance (`delFix`). -/
def deleteNode : Node → Int → Node
  | .nil, _ => .nil
  | .node f p s q l r h, fecha =>
      let root' : Node :=
        if fecha < f then .node f p s q (deleteNode l fecha) r h
        else if f < fecha then .node f p s q l (deleteNode r fecha) h
        else
          match l, r with
          | .nil, r => r
          | l, .nil => l
          | l, r =>
              let temp := minValueNode r
              .node (keyD temp) (strncpy63 (prodD temp)) (stockD temp)
                (cloneOrders (ordersD temp)) l (deleteNode r (keyD temp)) h
      match root' with
      | .nil => .nil
      | .node f' p' s' q' l' r' h' => delFix (.node f' p' s' q' l' r' h')

/-- In-order key sequence of the tree (what `inorder_report` walks). -/
def keys : Node → List Int
  | .nil => []
  | .node f _ _ _ l r _ => keys l ++ f :: keys r

/-- In-order sequence of full lot snapshots. -/
def lots : Node → List (Int × List Nat × Int × List Order)
  | .nil => []
  | .node f p s q l r _ => lots l ++ (f, p, s, q) :: lots r

/-- Every stored height field equals 1 + max of the children's heights. -/
def hOkB : Node → Bool
  | .nil => true
  | .node _ _ _ _ l r h => (h == 1 + max (heightT l) (heightT r)) && hOkB l && hOkB r

/-- Every node's balance factor lies in {-1, 0, 1}. -/
def balB : Node → Bool
  | .nil => true
  | .node _ _ _ _ l r _ =>
      (decide (heightT l ≤ heightT r + 1) && decide (heightT r ≤ heightT l + 1))
        && balB l && balB r

/-- Fold a sequence of `insertAVL` calls starting from the empty tree. -/
def build (L : List (Int × List Nat × Int)) : Node :=
  L.foldl (fun t x => (insertAVL t x.1 x.2.1 x.2.2).1) .nil

/-! ## Dispatch (menu option 3, `main` lines 1165-1227) -/

/-- Outcome of the "Registrar pedido de despacho" operation, one constructor
per message the code can print on that path. -/
inductive DispatchResult where
  | sin_inventario      -- "No hay lotes en inventario."
  | destino_vacio       -- "Error: El destino no puede estar vacio."
  | cantidad_invalida   -- "Error: La cantidad debe ser positiva."
  | stock_insuficiente  -- "Error: Stock insuficiente ..."
  | ok                  -- "Pedido encolado correctamente."
deriving DecidableEq, Repr

/-- Apply an update to the node `minValueNode` returns (the C mutates that lot
in place through the pointer). -/
def updateMin (g : Node → Node) : Node → Node
  | .nil => .nil
  | .node f p s q l r h =>
      match l with
      | .nil => g (.node f p s q .nil r h)
      | .node _ _ _ _ _ _ _ => .node f p s q (updateMin g l) r h

/-- The in-place mutation of the selected lot on a successful dispatch:
`enqueue_order(lote, destino, qty)` then `lote->stock_total -= qty`. -/
def despacharLote (destino : List Nat) (qty : Int) : Node → Node
  | .nil => .nil
  | .node f p s q l r h => .node f p (s - qty) (enqueue_order q destino qty) l r h

/-- Menu option 3: resolve the nearest-expiry lot via `minValueNode(root)`;
empty tree fails first, then the destination/quantity checks of the code, then
the stock check `qty > lote->stock_total`; otherwise enqueue and decrement. -/
def registrar_pedido (root : Node) (destino : List Nat) (qty : Int) :
    Node × DispatchResult :=
  match root with
  | .nil => (.nil, .sin_inventario)
  | .node f p s q l r h =>
      let root := Node.node f p s q l r h
      if (destino.takeWhile (fun b => b ≠ 0)).length = 0 then (root, .destino_vacio)
      else if qty ≤ 0 then (root, .cantidad_invalida)
      else if stockD (minValueNode root) < qty then (root, .stock_insuficiente)
      else (updateMin (despacharLote destino qty) root, .ok)

/-! ## Order cancellation (`cancel_order_in_node`, lines 649-685)

The queue is the list of cells from `cabeza_pedidos` following `siguiente`;
the `tail` pointer is modelled as the index of the cell it designates
(`none` for NULL).  When the cell at index `i` is unlinked, the cells after it
move one position down in the traversal, so a pointer to cell `j > i` denotes
index `j - 1` afterwards. -/

/-- The scan loop of `cancel_order_in_node`: `done` holds the cells already
passed (`prev` is its last cell), `i` is the index of `cur`. -/
def cancel_loop (destino : List Nat) (cantidad : Int) :
    Int → List Order → List Order → Nat → Option Nat →
      Int × List Order × Option Nat × Bool
  | stock, done, [], _, tl => (stock, done, tl, false)
  | stock, done, cur :: siguiente, i, tl =>
      if cur.nombre_destino = destino.takeWhile (fun b => b ≠ 0) ∧
          cur.cantidad_solicitada = cantidad then
        let shift : Option Nat → Option Nat :=
          Option.map fun j => if i < j then j - 1 else j
        let tl' :=
          if i = 0 then
            -- !prev: head unlinked; if (node->tail == cur) node->tail = NULL
            (if tl = some i then none else shift tl)
          else
            -- prev->siguiente = cur->siguiente; if (tail == cur) tail = prev
            (if tl = some i then some (i - 1) else shift tl)
        (stock + cantidad, done ++ siguiente, tl', true)
      else
        cancel_loop destino cantidad stock (done ++ [cur]) siguiente (i + 1) tl

/-- C `cancel_order_in_node` on the mutable fields of a node: returns the new
`stock_total`, queue, tail pointer, and the found flag (C `1`/`0`). -/
def cancel_order_in_node (stock : Int) (q : List Order) (tl : Option Nat)
    (destino : List Nat) (cantidad : Int) : Int × List Order × Option Nat × Bool :=
  match q with
  | [] => (stock, [], tl, false)
  | _ :: _ => cancel_loop destino cantidad stock [] q 0 tl

/-! ## Binary persistence (`guardar_arbol` / `cargar_arbol`)

The file is a byte list; `int` fields are four little-endian bytes of the
two's-complement value, `char[64]` fields are the string bytes padded with
NULs to 64. -/

/-- Little-endian two's-complement encoding of a C `int` (as `fwrite` emits). -/
def encInt (v : Int) : List Nat :=
  let n := (v % 4294967296).toNat
  [n % 256, n / 256 % 256, n / 65536 % 256, n / 16777216 % 256]

/-- Decoding of four little-endian bytes into a C `int` (as `fread` fills). -/
def decInt : List Nat → Int
  | [b0, b1, b2, b3] =>
      let n := b0 % 256 + b1 % 256 * 256 + b2 % 256 * 65536 + b3 % 256 * 16777216
      if n < 2147483648 then (n : Int) else (n : Int) - 4294967296
  | _ => 0

/-- The 64-byte buffer holding a stored string (content then NUL padding),
as `fwrite(.., sizeof(char), 64, f)` emits it. -/
def buf64 (s : List Nat) : List Nat := (s ++ List.replicate 64 0).take 64

/-- `guardar_nodo`: pre-order record of a node — key, product, stock, order
count, the orders, then left and right subtree; `-1` marks an absent child. -/
def guardar_nodo : Node → List Nat
  | .nil => encInt (-1)
  | .node f p s q l r _ =>
      encInt f ++ buf64 p ++ encInt s ++ encInt (count_orders q : Int)
        ++ (q.map fun o => buf64 o.nombre_destino ++ encInt o.cantidad_solicitada).flatten
        ++ guardar_nodo l ++ guardar_nodo r

/-- C `guardar_arbol` (modulo opening the file): the bytes written. -/
def guardar_arbol (root : Node) : List Nat := guardar_nodo root

/-- The order-loading loop of `cargar_nodo`: reads `k` records of
(64-byte destination, `int` quantity), enqueuing each and subtracting its
quantity from the stock; a short read aborts with `none` (C frees the node
and returns NULL). -/
def cargar_pedidos : Nat → List Order → Int → List Nat →
    Option (List Order × Int) × List Nat
  | 0, q, stock, s => (some (q, stock), s)
  | k + 1, q, stock, s =>
      if s.length < 64 then (none, s.drop 64)
      else
        let destino := s.take 64
        let s1 := s.drop 64
        if s1.length < 4 then (none, s1.drop 4)
        else
          let cantidad := decInt (s1.take 4)
          cargar_pedidos k (enqueue_order q destino cantidad) (stock - cantidad)
            (s1.drop 4)

/-- `cargar_nodo`: read one pre-order record from the stream.  A short read
returns NULL (`.nil`) exactly as the `-1` marker does — the caller cannot tell
the two apart.  The `fuel` argument only bounds the recursion depth; every
level consumes at least 76 bytes before recursing, so any fuel larger than
`s.length / 76` computes the function the C recursion denotes. -/
def cargar_nodo : Nat → List Nat → Node × List Nat
  | 0, s => (.nil, s)
  | fuel + 1, s =>
      if s.length < 4 then (.nil, s.drop 4)
      else
        let fecha := decInt (s.take 4)
        let s1 := s.drop 4
        if fecha = -1 then (.nil, s1)
        else if s1.length < 64 then (.nil, s1.drop 64)
        else
          let producto := s1.take 64
          let s2 := s1.drop 64
          if s2.length < 4 then (.nil, s2.drop 4)
          else
            let stock := decInt (s2.take 4)
            let s3 := s2.drop 4
            if s3.length < 4 then (.nil, s3.drop 4)
            else
              let num_pedidos := decInt (s3.take 4)
              let s4 := s3.drop 4
              match cargar_pedidos num_pedidos.toNat [] stock s4 with
              | (none, s5) => (.nil, s5)
              | (some (q, stock'), s5) =>
                  let resL := cargar_nodo fuel s5
                  let resR := cargar_nodo fuel resL.2
                  (.node fecha (strncpy63 producto) stock' q resL.1 resR.1
                      (1 + max (heightT resL.1) (heightT resR.1)), resR.2)

/-- C `cargar_arbol` on the bytes of an existing file. -/
def cargar_arbol (s : List Nat) : Node := (cargar_nodo (s.length + 1) s).1

/-! ## Freeing discipline of `deleteNode` (lines 527 and 569)

`deleteNodeFrees` records, in order, the queue pointer passed to each
`free_orders` call made on the located node's own `cabeza_pedidos` field:
once at line 527, and — in the two-children case — a second time at line 569
with the same, already freed, pointer. -/
def deleteNodeFrees : Node → Int → List (List Order)
  | .nil, _ => []
  | .node f _ _ q l r _, fecha =>
      if fecha < f then deleteNodeFrees l fecha
      else if f < fecha then deleteNodeFrees r fecha
      else
        match l, r with
        | .nil, _ => [q]
        | _, .nil => [q]
        | _, _ => q :: q :: deleteNodeFrees r (keyD (minValueNode r))

/-! ## The `arbol.c` passenger BST -/

/-- `strcpy` into the 20-byte buffers of `arbol.c`: copy up to the NUL. -/
def strcpyC (s : List Nat) : List Nat := s.takeWhile (fun b => b ≠ 0)

/-- C struct `Pasajero` of `arbol.c`. -/
inductive Pasajero where
  | nil : Pasajero
  | node (documento : Int) (destino : List Nat) (tipo_pasaje : List Nat)
      (izq : Pasajero) (der : Pasajero) : Pasajero
deriving DecidableEq, Repr

/-- C `nuevoPasajero` (as intended: the source allocates the struct). -/
def nuevoPasajero (documento : Int) (destino tipo : List Nat) : Pasajero :=
  .node documento (strcpyC destino) (strcpyC tipo) .nil .nil

/-- C `insertar` of `arbol.c`; the boolean records the duplicate-document
branch ("El documento ya existe, no se inserta."). -/
def insertar : Pasajero → Int → List Nat → List Nat → Pasajero × Bool
  | .nil, documento, destino, tipo => (nuevoPasajero documento destino tipo, false)
  | .node d dst tp izq der, documento, destino, tipo =>
      if documento < d then
        let res := insertar izq documento destino tipo
        (.node d dst tp res.1 der, res.2)
      else if d < documento then
        let res := insertar der documento destino tipo
        (.node d dst tp izq res.1, res.2)
      else
        (.node d dst tp izq der, true)

/-- In-order document sequence of the passenger BST (`inorden`). -/
def keysP : Pasajero → List Int
  | .nil => []
  | .node d _ _ izq der => keysP izq ++ d :: keysP der

/-! ## Auxiliary definitions for the specification layer -/

/-- Left child (NULL reads give `.nil`). -/
def leftD : Node → Node
  | .nil => .nil
  | .node _ _ _ _ l _ _ => l

/-- Right child. -/
def rightD : Node → Node
  | .nil => .nil
  | .node _ _ _ _ _ r _ => r

/-- Insertion of a key into a (sorted) key list, keeping one copy of a key
that is already present; reference function for the effect of `insertAVL` on
the in-order key sequence. -/
def insortK (k : Int) : List Int → List Int
  | [] => [k]
  | x :: xs => if k < x then k :: x :: xs else if x < k then x :: insortK k xs else x :: xs

/-- Every node's balance factor (`getBalance`) lies in {-1, 0, 1}; the wording
of the specification's AVL invariant. -/
def bfInRangeB : Node → Bool
  | .nil => true
  | .node f p s q l r h =>
      (decide (-1 ≤ getBalance (.node f p s q l r h)) &&
        decide (getBalance (.node f p s q l r h) ≤ 1))
        && bfInRangeB l && bfInRangeB r

/-! # Theorems -/

theorem heightT_nil : heightT .nil = 0 := rfl

theorem heightT_node (f : Int) (p : List Nat) (s : Int) (q : List Order)
    (l r : Node) (h : Nat) : heightT (.node f p s q l r h) = h := rfl

theorem keys_nil : keys .nil = [] := rfl

theorem keys_node (f : Int) (p : List Nat) (s : Int) (q : List Order)
    (l r : Node) (h : Nat) :
    keys (.node f p s q l r h) = keys l ++ f :: keys r := rfl

theorem hOkB_node_iff (f : Int) (p : List Nat) (s : Int) (q : List Order)
    (l r : Node) (h : Nat) :
    hOkB (.node f p s q l r h) = true ↔
      h = 1 + max (heightT l) (heightT r) ∧ hOkB l = true ∧ hOkB r = true := by
  simp [hOkB, Bool.and_eq_true, and_assoc]

theorem balB_node_iff (f : Int) (p : List Nat) (s : Int) (q : List Order)
    (l r : Node) (h : Nat) :
    balB (.node f p s q l r h) = true ↔
      (heightT l ≤ heightT r + 1 ∧ heightT r ≤ heightT l + 1) ∧
        balB l = true ∧ balB r = true := by
  simp [balB, Bool.and_eq_true, and_assoc]

theorem pairwise_mid {xs ys : List Int} {f : Int} :
    (xs ++ f :: ys).Pairwise (· < ·) ↔
      xs.Pairwise (· < ·) ∧ ys.Pairwise (· < ·) ∧
        (∀ x ∈ xs, x < f) ∧ ∀ y ∈ ys, f < y := by
  constructor
  · intro h
    rw [List.pairwise_append] at h
    obtain ⟨h1, h2, h3⟩ := h
    rw [List.pairwise_cons] at h2
    exact ⟨h1, h2.2, fun x hx => h3 x hx f (by simp), h2.1⟩
  · rintro ⟨h1, h2, h3, h4⟩
    rw [List.pairwise_append]
    refine ⟨h1, ?_, ?_⟩
    · rw [List.pairwise_cons]; exact ⟨h4, h2⟩
    · intro x hx b hb
      rcases List.mem_cons.mp hb with rfl | hb
      · exact h3 x hx
      · exact lt_trans (h3 x hx) (h4 b hb)

theorem insortK_lt_append {k f : Int} (hkf : k < f) (xs ys : List Int) :
    insortK k (xs ++ f :: ys) = insortK k xs ++ f :: ys := by
  induction xs with
  | nil => simp [insortK, hkf]
  | cons x xs ih =>
      by_cases h1 : k < x
      · simp [insortK, h1]
      · by_cases h2 : x < k
        · simp [insortK, h1, h2, ih]
        · simp [insortK, h1, h2]

theorem insortK_gt_append {k f : Int} (hfk : f < k) (xs ys : List Int)
    (hxs : ∀ x ∈ xs, x < k) :
    insortK k (xs ++ f :: ys) = xs ++ f :: insortK k ys := by
  induction xs with
  | nil => simp [insortK, hfk, Int.not_lt.mpr (Int.le_of_lt hfk)]
  | cons x xs ih =>
      have hx : x < k := hxs x (by simp)
      simp only [List.cons_append, insortK, if_neg (Int.not_lt.mpr (Int.le_of_lt hx)),
        if_pos hx]
      rw [List.append_eq, ih (fun y hy => hxs y (by simp [hy]))]

theorem mem_insortK {a k : Int} (xs : List Int) :
    a ∈ insortK k xs ↔ a = k ∨ a ∈ xs := by
  induction xs with
  | nil => simp [insortK]
  | cons x xs ih =>
      by_cases h1 : k < x
      · simp only [insortK, if_pos h1, List.mem_cons]
      · by_cases h2 : x < k
        · simp only [insortK, if_neg h1, if_pos h2, List.mem_cons, ih]; tauto
        · have : x = k := by omega
          subst this
          simp only [insortK, if_neg h1, if_neg h2, List.mem_cons]; tauto

theorem insortK_sorted {k : Int} {xs : List Int} (h : xs.Pairwise (· < ·)) :
    (insortK k xs).Pairwise (· < ·) := by
  induction xs with
  | nil => simp [insortK]
  | cons x xs ih =>
      rw [List.pairwise_cons] at h
      by_cases h1 : k < x
      · rw [insortK, if_pos h1, List.pairwise_cons]
        refine ⟨?_, List.pairwise_cons.mpr h⟩
        intro b hb
        rcases List.mem_cons.mp hb with rfl | hb
        · exact h1
        · exact lt_trans h1 (h.1 b hb)
      · by_cases h2 : x < k
        · rw [insortK, if_neg h1, if_pos h2, List.pairwise_cons]
          refine ⟨?_, ih h.2⟩
          intro b hb
          rcases (mem_insortK xs).mp hb with rfl | hb
          · exact h2
          · exact h.1 b hb
        · rw [insortK, if_neg h1, if_neg h2]
          exact List.pairwise_cons.mpr h

theorem insortK_of_mem {k : Int} {xs : List Int} (hs : xs.Pairwise (· < ·))
    (h : k ∈ xs) : insortK k xs = xs := by
  induction xs with
  | nil => simp at h
  | cons x xs ih =>
      rw [List.pairwise_cons] at hs
      rcases List.mem_cons.mp h with rfl | h
      · simp [insortK]
      · have hx : x < k := hs.1 k h
        rw [insortK, if_neg (by omega), if_pos hx, ih hs.2 h]

theorem rightRotate_keys (t : Node) : keys (rightRotate t) = keys t := by
  match t with
  | .nil => rfl
  | .node f p s q .nil r h => rfl
  | .node f p s q (.node fx px sx qx t1 t2 hx) t3 h =>
      simp [rightRotate, keys, List.append_assoc]

theorem leftRotate_keys (t : Node) : keys (leftRotate t) = keys t := by
  match t with
  | .nil => rfl
  | .node f p s q l .nil h => rfl
  | .node f p s q t1 (.node fy py sy qy t2 t3 hy) h =>
      simp [leftRotate, keys, List.append_assoc]

theorem insFix_keys (k : Int) (f : Int) (p : List Nat) (s : Int) (q : List Order)
    (l r : Node) (h : Nat) :
    keys (insFix k (.node f p s q l r h)) = keys l ++ f :: keys r := by
  rw [insFix]
  split
  · rw [rightRotate_keys]; rfl
  · split
    · rw [leftRotate_keys]; rfl
    · split
      · rw [rightRotate_keys, keys_node, leftRotate_keys]
      · split
        · rw [leftRotate_keys, keys_node, rightRotate_keys]
        · rfl

theorem insFix_noRot (k f : Int) (p : List Nat) (s : Int) (q : List Order)
    (l r : Node) (h : Nat)
    (hb1 : heightT l ≤ heightT r + 1) (hb2 : heightT r ≤ heightT l + 1) :
    insFix k (.node f p s q l r h) = .node f p s q l r (1 + max (heightT l) (heightT r)) := by
  rw [insFix, if_neg (by omega), if_neg (by omega), if_neg (by omega), if_neg (by omega)]

theorem insFix_LL (k f : Int) (p : List Nat) (s : Int) (q : List Order)
    (l r : Node) (h : Nat)
    (hb : heightT l = heightT r + 2) (hk : k < keyD l) :
    insFix k (.node f p s q l r h) =
      rightRotate (.node f p s q l r (1 + max (heightT l) (heightT r))) := by
  rw [insFix, if_pos ⟨by omega, hk⟩]

theorem insFix_LR (k f : Int) (p : List Nat) (s : Int) (q : List Order)
    (l r : Node) (h : Nat)
    (hb : heightT l = heightT r + 2) (hk : keyD l < k) :
    insFix k (.node f p s q l r h) =
      rightRotate (.node f p s q (leftRotate l) r (1 + max (heightT l) (heightT r))) := by
  rw [insFix, if_neg (fun hc => absurd hc.2 (by omega)), if_neg (by omega),
    if_pos ⟨by omega, hk⟩]

theorem insFix_RR (k f : Int) (p : List Nat) (s : Int) (q : List Order)
    (l r : Node) (h : Nat)
    (hb : heightT r = heightT l + 2) (hk : keyD r < k) :
    insFix k (.node f p s q l r h) =
      leftRotate (.node f p s q l r (1 + max (heightT l) (heightT r))) := by
  rw [insFix, if_neg (by omega), if_pos ⟨by omega, hk⟩]

theorem insFix_RL (k f : Int) (p : List Nat) (s : Int) (q : List Order)
    (l r : Node) (h : Nat)
    (hb : heightT r = heightT l + 2) (hk : k < keyD r) :
    insFix k (.node f p s q l r h) =
      leftRotate (.node f p s q l (rightRotate r) (1 + max (heightT l) (heightT r))) := by
  rw [insFix, if_neg (by omega), if_neg (fun hc => absurd hc.2 (by omega)),
    if_neg (by omega), if_pos ⟨by omega, hk⟩]

theorem rightRotate_node (fy : Int) (py : List Nat) (sy : Int) (qy : List Order)
    (fx : Int) (px : List Nat) (sx : Int) (qx : List Order)
    (t1 t2 : Node) (hx : Nat) (t3 : Node) (hy : Nat) :
    rightRotate (.node fy py sy qy (.node fx px sx qx t1 t2 hx) t3 hy) =
      .node fx px sx qx t1
        (.node fy py sy qy t2 t3 (max (heightT t2) (heightT t3) + 1))
        (max (heightT t1) (max (heightT t2) (heightT t3) + 1) + 1) := rfl

theorem leftRotate_node (fx : Int) (px : List Nat) (sx : Int) (qx : List Order)
    (t1 : Node) (fy : Int) (py : List Nat) (sy : Int) (qy : List Order)
    (t2 t3 : Node) (hy : Nat) (hx : Nat) :
    leftRotate (.node fx px sx qx t1 (.node fy py sy qy t2 t3 hy) hx) =
      .node fy py sy qy
        (.node fx px sx qx t1 t2 (max (heightT t1) (heightT t2) + 1))
        t3 (max (max (heightT t1) (heightT t2) + 1) (heightT t3) + 1) := rfl
theorem insertAVL_spec (k : Int) (p : List Nat) (s : Int) :
    ∀ t : Node, (keys t).Pairwise (· < ·) → hOkB t = true → balB t = true →
      keys (insertAVL t k p s).1 = insortK k (keys t) ∧
      hOkB (insertAVL t k p s).1 = true ∧
      balB (insertAVL t k p s).1 = true ∧
      heightT t ≤ heightT (insertAVL t k p s).1 ∧
      heightT (insertAVL t k p s).1 ≤ heightT t + 1 ∧
      ((insertAVL t k p s).2 = true ↔ k ∈ keys t) ∧
      (k ∈ keys t → (insertAVL t k p s).1 = t) ∧
      (∀ f' p' s' q' l' r' h', t = .node f' p' s' q' l' r' h' →
        heightT (insertAVL t k p s).1 = h' + 1 →
        keyD (insertAVL t k p s).1 = f' ∧
        ((k < f' ∧ heightT (leftD (insertAVL t k p s).1) = heightT l' + 1 ∧
            heightT (rightD (insertAVL t k p s).1) = heightT r') ∨
          (f' < k ∧ heightT (leftD (insertAVL t k p s).1) = heightT l' ∧
            heightT (rightD (insertAVL t k p s).1) = heightT r' + 1))) := by
  intro t
  induction t with
  | nil =>
      intro _ _ _
      refine ⟨rfl, rfl, rfl, by simp [insertAVL, newNode, heightT],
        by simp [insertAVL, newNode, heightT], by simp [insertAVL, keys],
        by simp [keys], ?_⟩
      intro f' p' s' q' l' r' h' heq
      exact absurd heq (by simp)
  | node f p0 s0 q0 l r h0 ihl ihr =>
      intro hsort hok hbal
      rw [keys_node] at hsort
      obtain ⟨hsl, hsr, hlf, hfr⟩ := pairwise_mid.mp hsort
      obtain ⟨hh0, hokl, hokr⟩ := (hOkB_node_iff f p0 s0 q0 l r h0).mp hok
      obtain ⟨⟨hb1, hb2⟩, hball, hbalr⟩ := (balB_node_iff f p0 s0 q0 l r h0).mp hbal
      rcases lt_trichotomy k f with hkf | hkf | hkf
      · -- insertion goes into the left subtree
        have hins1 : (insertAVL (.node f p0 s0 q0 l r h0) k p s).1
            = insFix k (.node f p0 s0 q0 (insertAVL l k p s).1 r h0) := by
          simp only [insertAVL, if_pos hkf]
        have hins2 : (insertAVL (.node f p0 s0 q0 l r h0) k p s).2
            = (insertAVL l k p s).2 := by
          simp only [insertAVL, if_pos hkf]
        obtain ⟨Dl, El, Fl, G1l, G2l, Al, Bl, Hl⟩ := ihl hsl hokl hball
        have hmem : k ∈ keys (Node.node f p0 s0 q0 l r h0) ↔ k ∈ keys l := by
          rw [keys_node]
          simp only [List.mem_append, List.mem_cons]
          constructor
          · rintro (h | rfl | h)
            · exact h
            · omega
            · exact absurd (hfr k h) (by omega)
          · exact fun h => Or.inl h
        have hkeys : keys (insertAVL (Node.node f p0 s0 q0 l r h0) k p s).1
            = insortK k (keys (Node.node f p0 s0 q0 l r h0)) := by
          rw [hins1, insFix_keys, Dl, keys_node, insortK_lt_append hkf]
        have hflag : (insertAVL (Node.node f p0 s0 q0 l r h0) k p s).2 = true
            ↔ k ∈ keys (Node.node f p0 s0 q0 l r h0) := by
          rw [hins2]; exact Al.trans hmem.symm
        by_cases hov : heightT (insertAVL l k p s).1 ≤ heightT r + 1
        · -- no rotation fires
          have hfix := insFix_noRot k f p0 s0 q0 (insertAVL l k p s).1 r h0 hov (by omega)
          refine ⟨hkeys, ?_, ?_, ?_, ?_, hflag, ?_, ?_⟩
          · rw [hins1, hfix, hOkB_node_iff]
            exact ⟨rfl, El, hokr⟩
          · rw [hins1, hfix, balB_node_iff]
            exact ⟨⟨hov, by omega⟩, Fl, hbalr⟩
          · rw [hins1, hfix]; simp only [heightT_node]; omega
          · rw [hins1, hfix]; simp only [heightT_node]; omega
          · intro hk
            have hkl := hmem.mp hk
            rw [hins1, hfix, Bl hkl, ← hh0]
          · intro f' p' s' q' l' r' h' heq hgrow
            injection heq with e1 e2 e3 e4 e5 e6 e7
            subst e1; subst e2; subst e3; subst e4; subst e5; subst e6; subst e7
            rw [hins1, hfix] at hgrow ⊢
            simp only [heightT_node] at hgrow
            refine ⟨rfl, Or.inl ⟨hkf, ?_, ?_⟩⟩
            · simp only [leftD, heightT_node]; omega
            · simp only [rightD]
        · -- overflow: the left subtree grew to height r + 2
          have hL2 : heightT (insertAVL l k p s).1 = heightT r + 2 := by omega
          have hknotin : k ∉ keys l := by
            intro hkin
            have hBe := congrArg heightT (Bl hkin)
            omega
          have hBconj : k ∈ keys (Node.node f p0 s0 q0 l r h0) →
              (insertAVL (Node.node f p0 s0 q0 l r h0) k p s).1
                = Node.node f p0 s0 q0 l r h0 :=
            fun hk => absurd (hmem.mp hk) hknotin
          rcases l with _ | ⟨fl, pl, sl, ql, ll, lr, hl0⟩
          · exfalso
            simp only [heightT_nil] at G2l
            omega
          · simp only [heightT_node] at hL2 G1l G2l hb1 hb2 hh0
            have hHl := Hl fl pl sl ql ll lr hl0 rfl (by omega)
            obtain ⟨hkey, hdir⟩ := hHl
            obtain ⟨hEl0, hokll, hoklr⟩ := (hOkB_node_iff fl pl sl ql ll lr hl0).mp hokl
            obtain ⟨⟨hbll1, hbll2⟩, hballl, hballr⟩ :=
              (balB_node_iff fl pl sl ql ll lr hl0).mp hball
            rcases hLe : (insertAVL (Node.node fl pl sl ql ll lr hl0) k p s).1 with
              _ | ⟨fL, pL, sL, qL, LL, LR, hL0⟩
            · rw [hLe] at hL2; simp only [heightT_nil] at hL2; exfalso; omega
            · rw [hLe] at El Fl hL2 hkey hdir
              simp only [heightT_node] at hL2
              simp only [keyD] at hkey
              subst hkey
              obtain ⟨hEL0, hokLL, hokLR⟩ := (hOkB_node_iff _ _ _ _ _ _ _).mp El
              obtain ⟨⟨hbL1, hbL2⟩, hbalLL, hbalLR⟩ := (balB_node_iff _ _ _ _ _ _ _).mp Fl
              rcases hdir with ⟨hklt, hd1, hd2⟩ | ⟨hkgt, hd1, hd2⟩
              · -- LL shape: single right rotation
                simp only [leftD, rightD, heightT_node] at hd1 hd2
                have hfix := insFix_LL k f p0 s0 q0 (Node.node fL pL sL qL LL LR hL0) r h0
                  (by simp only [heightT_node]; omega) (by simp only [keyD]; exact hklt)
                refine ⟨hkeys, ?_, ?_, ?_, ?_, hflag, hBconj, ?_⟩
                · rw [hins1, hLe, hfix, rightRotate_node]
                  simp only [hOkB_node_iff, heightT_node]
                  exact ⟨by omega, hokLL, by omega, hokLR, hokr⟩
                · rw [hins1, hLe, hfix, rightRotate_node]
                  simp only [balB_node_iff, heightT_node]
                  exact ⟨⟨by omega, by omega⟩, hbalLL, ⟨by omega, by omega⟩, hbalLR, hbalr⟩
                · rw [hins1, hLe, hfix, rightRotate_node]
                  simp only [heightT_node]; omega
                · rw [hins1, hLe, hfix, rightRotate_node]
                  simp only [heightT_node]; omega
                · intro f' p' s' q' l' r' h' heq hgrow
                  injection heq with e1 e2 e3 e4 e5 e6 e7
                  subst e1; subst e2; subst e3; subst e4; subst e5; subst e6; subst e7
                  rw [hins1, hLe, hfix, rightRotate_node] at hgrow
                  simp only [heightT_node] at hgrow
                  exfalso; omega
              · -- LR shape: double rotation
                simp only [leftD, rightD, heightT_node] at hd1 hd2
                rcases hLRe : LR with _ | ⟨fR, pR, sR, qR, A, B, hR0⟩
                · rw [hLRe] at hd2; simp only [heightT_nil] at hd2; exfalso; omega
                · rw [hLRe] at hEL0 hokLR hbalLR hbL1 hbL2 hd2
                  simp only [heightT_node] at hEL0 hbL1 hbL2 hd2
                  obtain ⟨hER0, hokA, hokB⟩ := (hOkB_node_iff _ _ _ _ _ _ _).mp hokLR
                  obtain ⟨⟨hbR1, hbR2⟩, hbalA, hbalB⟩ :=
                    (balB_node_iff _ _ _ _ _ _ _).mp hbalLR
                  have hfix := insFix_LR k f p0 s0 q0
                    (Node.node fL pL sL qL LL (Node.node fR pR sR qR A B hR0) hL0) r h0
                    (by simp only [heightT_node]; omega) (by simp only [keyD]; exact hkgt)
                  refine ⟨hkeys, ?_, ?_, ?_, ?_, hflag, hBconj, ?_⟩
                  · rw [hins1, hLe, hLRe, hfix, leftRotate_node, rightRotate_node]
                    simp only [hOkB_node_iff, heightT_node]
                    exact ⟨by omega, ⟨by omega, hokLL, hokA⟩, by omega, hokB, hokr⟩
                  · rw [hins1, hLe, hLRe, hfix, leftRotate_node, rightRotate_node]
                    simp only [balB_node_iff, heightT_node]
                    exact ⟨⟨by omega, by omega⟩, ⟨⟨by omega, by omega⟩, hbalLL, hbalA⟩,
                      ⟨by omega, by omega⟩, hbalB, hbalr⟩
                  · rw [hins1, hLe, hLRe, hfix, leftRotate_node, rightRotate_node]
                    simp only [heightT_node]; omega
                  · rw [hins1, hLe, hLRe, hfix, leftRotate_node, rightRotate_node]
                    simp only [heightT_node]; omega
                  · intro f' p' s' q' l' r' h' heq hgrow
                    injection heq with e1 e2 e3 e4 e5 e6 e7
                    subst e1; subst e2; subst e3; subst e4; subst e5; subst e6; subst e7
                    rw [hins1, hLe, hLRe, hfix, leftRotate_node, rightRotate_node] at hgrow
                    simp only [heightT_node] at hgrow
                    exfalso; omega
      · -- duplicate key: k = f
        subst hkf
        have hins1 : (insertAVL (.node k p0 s0 q0 l r h0) k p s).1
            = Node.node k p0 s0 q0 l r h0 := by
          simp only [insertAVL, if_neg (lt_irrefl k)]
        have hins2 : (insertAVL (.node k p0 s0 q0 l r h0) k p s).2 = true := by
          simp only [insertAVL, if_neg (lt_irrefl k)]
        have hkmem : k ∈ keys (Node.node k p0 s0 q0 l r h0) := by
          rw [keys_node]; simp
        refine ⟨?_, ?_, ?_, ?_, ?_, ?_, ?_, ?_⟩
        · rw [hins1, insortK_of_mem _ hkmem]
          rw [keys_node]; exact hsort
        · rw [hins1]; exact hok
        · rw [hins1]; exact hbal
        · rw [hins1]
        · rw [hins1]; omega
        · rw [hins2]; exact iff_of_true rfl hkmem
        · intro _; rw [hins1]
        · intro f' p' s' q' l' r' h' heq hgrow
          injection heq with e1 e2 e3 e4 e5 e6 e7
          subst e1; subst e2; subst e3; subst e4; subst e5; subst e6; subst e7
          rw [hins1] at hgrow
          simp only [heightT_node] at hgrow
          exfalso; omega
      · -- insertion goes into the right subtree
        have hins1 : (insertAVL (.node f p0 s0 q0 l r h0) k p s).1
            = insFix k (.node f p0 s0 q0 l (insertAVL r k p s).1 h0) := by
          simp only [insertAVL, if_neg (by omega : ¬ k < f), if_pos hkf]
        have hins2 : (insertAVL (.node f p0 s0 q0 l r h0) k p s).2
            = (insertAVL r k p s).2 := by
          simp only [insertAVL, if_neg (by omega : ¬ k < f), if_pos hkf]
        obtain ⟨Dr, Er, Fr, G1r, G2r, Ar, Br, Hr⟩ := ihr hsr hokr hbalr
        have hmem : k ∈ keys (Node.node f p0 s0 q0 l r h0) ↔ k ∈ keys r := by
          rw [keys_node]
          simp only [List.mem_append, List.mem_cons]
          constructor
          · rintro (h | rfl | h)
            · exact absurd (hlf k h) (by omega)
            · omega
            · exact h
          · exact fun h => Or.inr (Or.inr h)
        have hkeys : keys (insertAVL (Node.node f p0 s0 q0 l r h0) k p s).1
            = insortK k (keys (Node.node f p0 s0 q0 l r h0)) := by
          rw [hins1, insFix_keys, Dr, keys_node,
            insortK_gt_append hkf (keys l) (keys r) (fun x hx => lt_trans (hlf x hx) hkf)]
        have hflag : (insertAVL (Node.node f p0 s0 q0 l r h0) k p s).2 = true
            ↔ k ∈ keys (Node.node f p0 s0 q0 l r h0) := by
          rw [hins2]; exact Ar.trans hmem.symm
        by_cases hov : heightT (insertAVL r k p s).1 ≤ heightT l + 1
        · -- no rotation fires
          have hfix := insFix_noRot k f p0 s0 q0 l (insertAVL r k p s).1 h0 (by omega) hov
          refine ⟨hkeys, ?_, ?_, ?_, ?_, hflag, ?_, ?_⟩
          · rw [hins1, hfix, hOkB_node_iff]
            exact ⟨rfl, hokl, Er⟩
          · rw [hins1, hfix, balB_node_iff]
            exact ⟨⟨by omega, hov⟩, hball, Fr⟩
          · rw [hins1, hfix]; simp only [heightT_node]; omega
          · rw [hins1, hfix]; simp only [heightT_node]; omega
          · intro hk
            have hkr := hmem.mp hk
            rw [hins1, hfix, Br hkr, ← hh0]
          · intro f' p' s' q' l' r' h' heq hgrow
            injection heq with e1 e2 e3 e4 e5 e6 e7
            subst e1; subst e2; subst e3; subst e4; subst e5; subst e6; subst e7
            rw [hins1, hfix] at hgrow ⊢
            simp only [heightT_node] at hgrow
            refine ⟨rfl, Or.inr ⟨hkf, ?_, ?_⟩⟩
            · simp only [leftD]
            · simp only [rightD, heightT_node]; omega
        · -- overflow: the right subtree grew to height l + 2
          have hR2 : heightT (insertAVL r k p s).1 = heightT l + 2 := by omega
          have hknotin : k ∉ keys r := by
            intro hkin
            have hBe := congrArg heightT (Br hkin)
            omega
          have hBconj : k ∈ keys (Node.node f p0 s0 q0 l r h0) →
              (insertAVL (Node.node f p0 s0 q0 l r h0) k p s).1
                = Node.node f p0 s0 q0 l r h0 :=
            fun hk => absurd (hmem.mp hk) hknotin
          rcases r with _ | ⟨fr, pr, sr, qr, rl, rr, hr0⟩
          · exfalso
            simp only [heightT_nil] at G2r
            omega
          · simp only [heightT_node] at hR2 G1r G2r hb1 hb2 hh0
            have hHr := Hr fr pr sr qr rl rr hr0 rfl (by omega)
            obtain ⟨hkey, hdir⟩ := hHr
            obtain ⟨hEr0, hokrl, hokrr⟩ := (hOkB_node_iff fr pr sr qr rl rr hr0).mp hokr
            obtain ⟨⟨hbrr1, hbrr2⟩, hbalrl, hbalrr⟩ :=
              (balB_node_iff fr pr sr qr rl rr hr0).mp hbalr
            rcases hRe : (insertAVL (Node.node fr pr sr qr rl rr hr0) k p s).1 with
              _ | ⟨fR, pR, sR, qR, LL, LR, hR0⟩
            · rw [hRe] at hR2; simp only [heightT_nil] at hR2; exfalso; omega
            · rw [hRe] at Er Fr hR2 hkey hdir
              simp only [heightT_node] at hR2
              simp only [keyD] at hkey
              subst hkey
              obtain ⟨hER0, hokLL, hokLR⟩ := (hOkB_node_iff _ _ _ _ _ _ _).mp Er
              obtain ⟨⟨hbR1, hbR2⟩, hbalLL, hbalLR⟩ := (balB_node_iff _ _ _ _ _ _ _).mp Fr
              rcases hdir with ⟨hklt, hd1, hd2⟩ | ⟨hkgt, hd1, hd2⟩
              · -- RL shape: double rotation
                simp only [leftD, rightD, heightT_node] at hd1 hd2
                rcases hLLe : LL with _ | ⟨fA, pA, sA, qA, A, B, hA0⟩
                · rw [hLLe] at hd1; simp only [heightT_nil] at hd1; exfalso; omega
                · rw [hLLe] at hER0 hokLL hbalLL hbR1 hbR2 hd1
                  simp only [heightT_node] at hER0 hbR1 hbR2 hd1
                  obtain ⟨hEA0, hokA, hokB⟩ := (hOkB_node_iff _ _ _ _ _ _ _).mp hokLL
                  obtain ⟨⟨hbA1, hbA2⟩, hbalA, hbalB⟩ :=
                    (balB_node_iff _ _ _ _ _ _ _).mp hbalLL
                  have hfix := insFix_RL k f p0 s0 q0 l
                    (Node.node fR pR sR qR (Node.node fA pA sA qA A B hA0) LR hR0) h0
                    (by simp only [heightT_node]; omega) (by simp only [keyD]; exact hklt)
                  refine ⟨hkeys, ?_, ?_, ?_, ?_, hflag, hBconj, ?_⟩
                  · rw [hins1, hRe, hLLe, hfix, rightRotate_node, leftRotate_node]
                    simp only [hOkB_node_iff, heightT_node]
                    exact ⟨by omega, ⟨by omega, hokl, hokA⟩, by omega, hokB, hokLR⟩
                  · rw [hins1, hRe, hLLe, hfix, rightRotate_node, leftRotate_node]
                    simp only [balB_node_iff, heightT_node]
                    exact ⟨⟨by omega, by omega⟩, ⟨⟨by omega, by omega⟩, hball, hbalA⟩,
                      ⟨by omega, by omega⟩, hbalB, hbalLR⟩
                  · rw [hins1, hRe, hLLe, hfix, rightRotate_node, leftRotate_node]
                    simp only [heightT_node]; omega
                  · rw [hins1, hRe, hLLe, hfix, rightRotate_node, leftRotate_node]
                    simp only [heightT_node]; omega
                  · intro f' p' s' q' l' r' h' heq hgrow
                    injection heq with e1 e2 e3 e4 e5 e6 e7
                    subst e1; subst e2; subst e3; subst e4; subst e5; subst e6; subst e7
                    rw [hins1, hRe, hLLe, hfix, rightRotate_node, leftRotate_node] at hgrow
                    simp only [heightT_node] at hgrow
                    exfalso; omega
              · -- RR shape: single left rotation
                simp only [leftD, rightD, heightT_node] at hd1 hd2
                have hfix := insFix_RR k f p0 s0 q0 l (Node.node fR pR sR qR LL LR hR0) h0
                  (by simp only [heightT_node]; omega) (by simp only [keyD]; exact hkgt)
                refine ⟨hkeys, ?_, ?_, ?_, ?_, hflag, hBconj, ?_⟩
                · rw [hins1, hRe, hfix, leftRotate_node]
                  simp only [hOkB_node_iff, heightT_node]
                  exact ⟨by omega, ⟨by omega, hokl, hokLL⟩, hokLR⟩
                · rw [hins1, hRe, hfix, leftRotate_node]
                  simp only [balB_node_iff, heightT_node]
                  exact ⟨⟨by omega, by omega⟩, ⟨⟨by omega, by omega⟩, hball, hbalLL⟩, hbalLR⟩
                · rw [hins1, hRe, hfix, leftRotate_node]
                  simp only [heightT_node]; omega
                · rw [hins1, hRe, hfix, leftRotate_node]
                  simp only [heightT_node]; omega
                · intro f' p' s' q' l' r' h' heq hgrow
                  injection heq with e1 e2 e3 e4 e5 e6 e7
                  subst e1; subst e2; subst e3; subst e4; subst e5; subst e6; subst e7
                  rw [hins1, hRe, hfix, leftRotate_node] at hgrow
                  simp only [heightT_node] at hgrow
                  exfalso; omega

theorem getBalance_node (f : Int) (p : List Nat) (s : Int) (q : List Order)
    (l r : Node) (h : Nat) :
    getBalance (.node f p s q l r h) = (heightT l : Int) - (heightT r : Int) := rfl

theorem delFix_keys (f : Int) (p : List Nat) (s : Int) (q : List Order)
    (l r : Node) (h : Nat) :
    keys (delFix (.node f p s q l r h)) = keys l ++ f :: keys r := by
  rw [delFix]
  split
  · rw [rightRotate_keys]; rfl
  · split
    · rw [rightRotate_keys, keys_node, leftRotate_keys]
    · split
      · rw [leftRotate_keys]; rfl
      · split
        · rw [leftRotate_keys, keys_node, rightRotate_keys]
        · rfl

theorem delFix_noRot (f : Int) (p : List Nat) (s : Int) (q : List Order)
    (l r : Node) (h : Nat)
    (hb1 : heightT l ≤ heightT r + 1) (hb2 : heightT r ≤ heightT l + 1) :
    delFix (.node f p s q l r h) = .node f p s q l r (1 + max (heightT l) (heightT r)) := by
  rw [delFix, if_neg (by omega), if_neg (by omega), if_neg (by omega), if_neg (by omega)]

theorem delFix_L0 (f : Int) (p : List Nat) (s : Int) (q : List Order)
    (l r : Node) (h : Nat)
    (hb : heightT l = heightT r + 2) (hbf : 0 ≤ getBalance l) :
    delFix (.node f p s q l r h) =
      rightRotate (.node f p s q l r (1 + max (heightT l) (heightT r))) := by
  rw [delFix, if_pos ⟨by omega, hbf⟩]

theorem delFix_Lneg (f : Int) (p : List Nat) (s : Int) (q : List Order)
    (l r : Node) (h : Nat)
    (hb : heightT l = heightT r + 2) (hbf : getBalance l < 0) :
    delFix (.node f p s q l r h) =
      rightRotate (.node f p s q (leftRotate l) r (1 + max (heightT l) (heightT r))) := by
  rw [delFix, if_neg (fun hc => absurd hc.2 (by omega)), if_pos ⟨by omega, hbf⟩]

theorem delFix_R0 (f : Int) (p : List Nat) (s : Int) (q : List Order)
    (l r : Node) (h : Nat)
    (hb : heightT r = heightT l + 2) (hbf : getBalance r ≤ 0) :
    delFix (.node f p s q l r h) =
      leftRotate (.node f p s q l r (1 + max (heightT l) (heightT r))) := by
  rw [delFix, if_neg (by omega), if_neg (by omega), if_pos ⟨by omega, hbf⟩]

theorem delFix_Rpos (f : Int) (p : List Nat) (s : Int) (q : List Order)
    (l r : Node) (h : Nat)
    (hb : heightT r = heightT l + 2) (hbf : 0 < getBalance r) :
    delFix (.node f p s q l r h) =
      leftRotate (.node f p s q l (rightRotate r) (1 + max (heightT l) (heightT r))) := by
  rw [delFix, if_neg (by omega), if_neg (by omega),
    if_neg (fun hc => absurd hc.2 (by omega)), if_pos ⟨by omega, hbf⟩]

theorem delFix_spec (f : Int) (p : List Nat) (s : Int) (q : List Order)
    (l r : Node) (h : Nat)
    (hokl : hOkB l = true) (hball : balB l = true)
    (hokr : hOkB r = true) (hbalr : balB r = true)
    (hd1 : heightT l ≤ heightT r + 2) (hd2 : heightT r ≤ heightT l + 2) :
    hOkB (delFix (.node f p s q l r h)) = true ∧
    balB (delFix (.node f p s q l r h)) = true ∧
    heightT (delFix (.node f p s q l r h)) ≤ 1 + max (heightT l) (heightT r) ∧
    max (heightT l) (heightT r) ≤ heightT (delFix (.node f p s q l r h)) ∧
    (heightT l ≤ heightT r + 1 → heightT r ≤ heightT l + 1 →
      heightT (delFix (.node f p s q l r h)) = 1 + max (heightT l) (heightT r)) := by
  by_cases hc1 : heightT l ≤ heightT r + 1 ∧ heightT r ≤ heightT l + 1
  · rw [delFix_noRot f p s q l r h hc1.1 hc1.2]
    refine ⟨?_, ?_, ?_, ?_, ?_⟩
    · rw [hOkB_node_iff]; exact ⟨rfl, hokl, hokr⟩
    · rw [balB_node_iff]; exact ⟨⟨hc1.1, hc1.2⟩, hball, hbalr⟩
    · simp only [heightT_node]; omega
    · simp only [heightT_node]; omega
    · intro hx1 hx2; simp only [heightT_node]
  · rcases (by omega : heightT l = heightT r + 2 ∨ heightT r = heightT l + 2) with hb | hb
    · -- left-heavy
      rcases l with _ | ⟨fl, pl, sl, ql, ll, lr, hl0⟩
      · simp only [heightT_nil] at hb; omega
      · obtain ⟨hEl0, hokll, hoklr⟩ := (hOkB_node_iff _ _ _ _ _ _ _).mp hokl
        obtain ⟨⟨hbl1, hbl2⟩, hballl, hballr⟩ := (balB_node_iff _ _ _ _ _ _ _).mp hball
        simp only [heightT_node] at hb
        by_cases hbf : 0 ≤ getBalance (Node.node fl pl sl ql ll lr hl0)
        · rw [delFix_L0 f p s q _ r h (by simp only [heightT_node]; omega) hbf,
            rightRotate_node]
          rw [getBalance_node] at hbf
          refine ⟨?_, ?_, ?_, ?_, ?_⟩
          · simp only [hOkB_node_iff, heightT_node]
            exact ⟨by omega, hokll, by omega, hoklr, hokr⟩
          · simp only [balB_node_iff, heightT_node]
            exact ⟨⟨by omega, by omega⟩, hballl, ⟨by omega, by omega⟩, hballr, hbalr⟩
          · simp only [heightT_node]; omega
          · simp only [heightT_node]; omega
          · intro hx1 hx2; simp only [heightT_node] at hx1 hx2; omega
        · rw [getBalance_node] at hbf
          rcases lr with _ | ⟨flr, plr, slr, qlr, A, B, hlr0⟩
          · simp only [heightT_nil] at hbf; omega
          · obtain ⟨hElr0, hokA, hokB⟩ := (hOkB_node_iff _ _ _ _ _ _ _).mp hoklr
            obtain ⟨⟨hblr1, hblr2⟩, hbalA, hbalB⟩ :=
              (balB_node_iff _ _ _ _ _ _ _).mp hballr
            simp only [heightT_node] at hbf hEl0 hbl1 hbl2
            rw [delFix_Lneg f p s q _ r h (by simp only [heightT_node]; omega)
                (by rw [getBalance_node]; simp only [heightT_node]; omega),
              leftRotate_node, rightRotate_node]
            refine ⟨?_, ?_, ?_, ?_, ?_⟩
            · simp only [hOkB_node_iff, heightT_node]
              exact ⟨by omega, ⟨by omega, hokll, hokA⟩, by omega, hokB, hokr⟩
            · simp only [balB_node_iff, heightT_node]
              exact ⟨⟨by omega, by omega⟩, ⟨⟨by omega, by omega⟩, hballl, hbalA⟩,
                ⟨by omega, by omega⟩, hbalB, hbalr⟩
            · simp only [heightT_node]; omega
            · simp only [heightT_node]; omega
            · intro hx1 hx2; simp only [heightT_node] at hx1 hx2; omega
    · -- right-heavy
      rcases r with _ | ⟨fr, pr, sr, qr, rl, rr, hr0⟩
      · simp only [heightT_nil] at hb; omega
      · obtain ⟨hEr0, hokrl, hokrr⟩ := (hOkB_node_iff _ _ _ _ _ _ _).mp hokr
        obtain ⟨⟨hbr1, hbr2⟩, hbalrl, hbalrr⟩ := (balB_node_iff _ _ _ _ _ _ _).mp hbalr
        simp only [heightT_node] at hb
        by_cases hbf : getBalance (Node.node fr pr sr qr rl rr hr0) ≤ 0
        · rw [delFix_R0 f p s q l _ h (by simp only [heightT_node]; omega) hbf,
            leftRotate_node]
          rw [getBalance_node] at hbf
          refine ⟨?_, ?_, ?_, ?_, ?_⟩
          · simp only [hOkB_node_iff, heightT_node]
            exact ⟨by omega, ⟨by omega, hokl, hokrl⟩, hokrr⟩
          · simp only [balB_node_iff, heightT_node]
            exact ⟨⟨by omega, by omega⟩, ⟨⟨by omega, by omega⟩, hball, hbalrl⟩, hbalrr⟩
          · simp only [heightT_node]; omega
          · simp only [heightT_node]; omega
          · intro hx1 hx2; simp only [heightT_node] at hx1 hx2; omega
        · rw [getBalance_node] at hbf
          rcases rl with _ | ⟨frl, prl, srl, qrl, A, B, hrl0⟩
          · simp only [heightT_nil] at hbf; omega
          · obtain ⟨hErl0, hokA, hokB⟩ := (hOkB_node_iff _ _ _ _ _ _ _).mp hokrl
            obtain ⟨⟨hbrl1, hbrl2⟩, hbalA, hbalB⟩ :=
              (balB_node_iff _ _ _ _ _ _ _).mp hbalrl
            simp only [heightT_node] at hbf hEr0 hbr1 hbr2
            rw [delFix_Rpos f p s q l _ h (by simp only [heightT_node]; omega)
                (by rw [getBalance_node]; simp only [heightT_node]; omega),
              rightRotate_node, leftRotate_node]
            refine ⟨?_, ?_, ?_, ?_, ?_⟩
            · simp only [hOkB_node_iff, heightT_node]
              exact ⟨by omega, ⟨by omega, hokl, hokA⟩, by omega, hokB, hokrr⟩
            · simp only [balB_node_iff, heightT_node]
              exact ⟨⟨by omega, by omega⟩, ⟨⟨by omega, by omega⟩, hball, hbalA⟩,
                ⟨by omega, by omega⟩, hbalB, hbalrr⟩
            · simp only [heightT_node]; omega
            · simp only [heightT_node]; omega
            · intro hx1 hx2; simp only [heightT_node] at hx1 hx2; omega

theorem delFix_id (f : Int) (p : List Nat) (s : Int) (q : List Order)
    (l r : Node) (h : Nat)
    (hok : hOkB (.node f p s q l r h) = true) (hbal : balB (.node f p s q l r h) = true) :
    delFix (.node f p s q l r h) = .node f p s q l r h := by
  obtain ⟨hh, _, _⟩ := (hOkB_node_iff _ _ _ _ _ _ _).mp hok
  obtain ⟨⟨hb1, hb2⟩, _, _⟩ := (balB_node_iff _ _ _ _ _ _ _).mp hbal
  rw [delFix_noRot f p s q l r h hb1 hb2, hh]

theorem minValueNode_keys : ∀ t : Node, t ≠ .nil →
    ∃ rest, keys t = keyD (minValueNode t) :: rest := by
  intro t
  induction t with
  | nil => intro h; exact absurd rfl h
  | node f p s q l r h ihl ihr =>
      intro _
      rcases l with _ | ⟨fl, pl, sl, ql, ll, lr, hl0⟩
      · exact ⟨keys r, by simp [minValueNode, keys, keyD]⟩
      · obtain ⟨rest, hrest⟩ := ihl (by simp)
        refine ⟨rest ++ f :: keys r, ?_⟩
        rw [keys_node, hrest]
        simp [minValueNode]

theorem deleteNode_lt (f : Int) (p : List Nat) (s : Int) (q : List Order)
    (l r : Node) (h : Nat) (fecha : Int) (hkf : fecha < f) :
    deleteNode (.node f p s q l r h) fecha
      = delFix (.node f p s q (deleteNode l fecha) r h) := by
  cases l <;> cases r <;> simp only [deleteNode, if_pos hkf]

theorem deleteNode_gt (f : Int) (p : List Nat) (s : Int) (q : List Order)
    (l r : Node) (h : Nat) (fecha : Int) (hkf : f < fecha) :
    deleteNode (.node f p s q l r h) fecha
      = delFix (.node f p s q l (deleteNode r fecha) h) := by
  cases l <;> cases r <;>
    simp only [deleteNode, if_neg (by omega : ¬ fecha < f), if_pos hkf]

theorem deleteNode_spec :
    ∀ t : Node, (keys t).Pairwise (· < ·) → hOkB t = true → balB t = true →
      ∀ k : Int,
      keys (deleteNode t k) = (keys t).erase k ∧
      hOkB (deleteNode t k) = true ∧
      balB (deleteNode t k) = true ∧
      heightT (deleteNode t k) ≤ heightT t ∧
      heightT t ≤ heightT (deleteNode t k) + 1 := by
  intro t
  induction t with
  | nil =>
      intro _ _ _ k
      exact ⟨by simp [deleteNode, keys], rfl, rfl, le_refl _, by simp [deleteNode, heightT]⟩
  | node f p0 s0 q0 l r h0 ihl ihr =>
      intro hsort hok hbal k
      rw [keys_node] at hsort
      obtain ⟨hsl, hsr, hlf, hfr⟩ := pairwise_mid.mp hsort
      obtain ⟨hh0, hokl, hokr⟩ := (hOkB_node_iff f p0 s0 q0 l r h0).mp hok
      obtain ⟨⟨hb1, hb2⟩, hball, hbalr⟩ := (balB_node_iff f p0 s0 q0 l r h0).mp hbal
      rcases lt_trichotomy k f with hkf | hkf | hkf
      · -- delete in the left subtree
        have hdel := deleteNode_lt f p0 s0 q0 l r h0 k hkf
        obtain ⟨Dl, El, Fl, G1l, G2l⟩ := ihl hsl hokl hball k
        obtain ⟨Hok, Hbal, Hh1, Hh2⟩ := delFix_spec f p0 s0 q0 (deleteNode l k) r h0
          El Fl hokr hbalr (by omega) (by omega)
        refine ⟨?_, ?_, ?_, ?_, ?_⟩
        · rw [hdel, delFix_keys, Dl, keys_node]
          by_cases hkl : k ∈ keys l
          · rw [List.erase_append_left _ hkl]
          · rw [List.erase_of_not_mem hkl, List.erase_append_right _ hkl]
            have hnr : k ∉ keys r := fun hin => absurd (hfr k hin) (by omega)
            rw [List.erase_cons_tail (by simp only [beq_iff_eq]; omega),
              List.erase_of_not_mem hnr]
        · rw [hdel]; exact Hok
        · rw [hdel]; exact Hbal
        · rw [hdel]; simp only [heightT_node]; omega
        · rw [hdel]; simp only [heightT_node]; omega
      · -- found: k = f
        subst hkf
        rcases l with _ | ⟨fl, pl, sl, ql, ll, lr, hl0⟩
        · rcases r with _ | ⟨fr, pr, sr, qr, rl, rr, hr0⟩
          · have hdel : deleteNode (.node k p0 s0 q0 .nil .nil h0) k = .nil := by
              simp only [deleteNode, if_neg (lt_irrefl k)]
            simp only [heightT_nil] at hh0
            refine ⟨?_, ?_, ?_, ?_, ?_⟩
            · rw [hdel]; simp [keys, List.erase_cons_head]
            · rw [hdel]; rfl
            · rw [hdel]; rfl
            · rw [hdel]; simp [heightT]
            · rw [hdel]; simp only [heightT_node, heightT_nil]; omega
          · have hdel : deleteNode (.node k p0 s0 q0 .nil (.node fr pr sr qr rl rr hr0) h0) k
                = delFix (.node fr pr sr qr rl rr hr0) := by
              simp only [deleteNode, if_neg (lt_irrefl k)]
            rw [delFix_id fr pr sr qr rl rr hr0 hokr hbalr] at hdel
            simp only [heightT_nil, heightT_node] at hh0
            refine ⟨?_, ?_, ?_, ?_, ?_⟩
            · rw [hdel]; simp [keys, List.erase_cons_head]
            · rw [hdel]; exact hokr
            · rw [hdel]; exact hbalr
            · rw [hdel]; simp only [heightT_node]; omega
            · rw [hdel]; simp only [heightT_node]; omega
        · rcases r with _ | ⟨fr, pr, sr, qr, rl, rr, hr0⟩
          · have hdel : deleteNode (.node k p0 s0 q0 (.node fl pl sl ql ll lr hl0) .nil h0) k
                = delFix (.node fl pl sl ql ll lr hl0) := by
              simp only [deleteNode, if_neg (lt_irrefl k)]
            rw [delFix_id fl pl sl ql ll lr hl0 hokl hball] at hdel
            simp only [heightT_nil, heightT_node] at hh0
            have hnl : k ∉ keys (Node.node fl pl sl ql ll lr hl0) :=
              fun hin => absurd (hlf k hin) (by omega)
            refine ⟨?_, ?_, ?_, ?_, ?_⟩
            · have htarget : (keys (Node.node k p0 s0 q0
                  (Node.node fl pl sl ql ll lr hl0) Node.nil h0)).erase k
                  = keys (Node.node fl pl sl ql ll lr hl0) := by
                rw [keys_node, List.erase_append_right _ hnl, keys_nil,
                  List.erase_cons_head, List.append_nil]
              rw [hdel, htarget]
            · rw [hdel]; exact hokl
            · rw [hdel]; exact hball
            · rw [hdel]; simp only [heightT_node]; omega
            · rw [hdel]; simp only [heightT_node]; omega
          · -- two children: replace by the in-order successor
            obtain ⟨rest, hrest⟩ :=
              minValueNode_keys (.node fr pr sr qr rl rr hr0) (by simp)
            have hdel : deleteNode
                (.node k p0 s0 q0 (.node fl pl sl ql ll lr hl0)
                  (.node fr pr sr qr rl rr hr0) h0) k
                = delFix (.node (keyD (minValueNode (.node fr pr sr qr rl rr hr0)))
                    (strncpy63 (prodD (minValueNode (.node fr pr sr qr rl rr hr0))))
                    (stockD (minValueNode (.node fr pr sr qr rl rr hr0)))
                    (cloneOrders (ordersD (minValueNode (.node fr pr sr qr rl rr hr0))))
                    (.node fl pl sl ql ll lr hl0)
                    (deleteNode (.node fr pr sr qr rl rr hr0)
                      (keyD (minValueNode (.node fr pr sr qr rl rr hr0)))) h0) := by
              simp only [deleteNode, if_neg (lt_irrefl k)]
            obtain ⟨Dr, Er, Fr, G1r, G2r⟩ := ihr hsr hokr hbalr
              (keyD (minValueNode (.node fr pr sr qr rl rr hr0)))
            rw [hrest, List.erase_cons_head] at Dr
            simp only [heightT_node] at hb1 hb2 hh0 G1r G2r
            obtain ⟨Hok, Hbal, Hh1, Hh2⟩ := delFix_spec
              (keyD (minValueNode (.node fr pr sr qr rl rr hr0)))
              (strncpy63 (prodD (minValueNode (.node fr pr sr qr rl rr hr0))))
              (stockD (minValueNode (.node fr pr sr qr rl rr hr0)))
              (cloneOrders (ordersD (minValueNode (.node fr pr sr qr rl rr hr0))))
              (.node fl pl sl ql ll lr hl0)
              (deleteNode (.node fr pr sr qr rl rr hr0)
                (keyD (minValueNode (.node fr pr sr qr rl rr hr0)))) h0
              hokl hball Er Fr (by simp only [heightT_node] at *; omega)
              (by simp only [heightT_node] at *; omega)
            have hnl : k ∉ keys (Node.node fl pl sl ql ll lr hl0) :=
              fun hin => absurd (hlf k hin) (by omega)
            refine ⟨?_, ?_, ?_, ?_, ?_⟩
            · have htarget : (keys (Node.node k p0 s0 q0
                  (Node.node fl pl sl ql ll lr hl0)
                  (Node.node fr pr sr qr rl rr hr0) h0)).erase k
                  = keys (Node.node fl pl sl ql ll lr hl0)
                    ++ keys (Node.node fr pr sr qr rl rr hr0) := by
                rw [keys_node, List.erase_append_right _ hnl, List.erase_cons_head]
              rw [hdel, delFix_keys, Dr, htarget, hrest]
            · rw [hdel]; exact Hok
            · rw [hdel]; exact Hbal
            · rw [hdel]; simp only [heightT_node] at Hh1 Hh2 ⊢; omega
            · rw [hdel]; simp only [heightT_node] at Hh1 Hh2 ⊢; omega
      · -- delete in the right subtree
        have hdel := deleteNode_gt f p0 s0 q0 l r h0 k hkf
        obtain ⟨Dr, Er, Fr, G1r, G2r⟩ := ihr hsr hokr hbalr k
        obtain ⟨Hok, Hbal, Hh1, Hh2⟩ := delFix_spec f p0 s0 q0 l (deleteNode r k) h0
          hokl hball Er Fr (by omega) (by omega)
        have hnl : k ∉ keys l := fun hin => absurd (hlf k hin) (by omega)
        refine ⟨?_, ?_, ?_, ?_, ?_⟩
        · rw [hdel, delFix_keys, Dr, keys_node, List.erase_append_right _ hnl,
            List.erase_cons_tail (by simp only [beq_iff_eq]; omega)]
        · rw [hdel]; exact Hok
        · rw [hdel]; exact Hbal
        · rw [hdel]; simp only [heightT_node]; omega
        · rw [hdel]; simp only [heightT_node]; omega
theorem bfInRangeB_eq_balB : ∀ t : Node, bfInRangeB t = balB t := by
  intro t
  induction t with
  | nil => rfl
  | node f p s q l r h ihl ihr =>
      simp only [bfInRangeB, balB, getBalance_node, ihl, ihr]
      congr 1
      congr 1
      rw [Bool.eq_iff_iff]
      simp only [Bool.and_eq_true, decide_eq_true_eq]
      omega

theorem searchNode_eq_none : ∀ (t : Node) (k : Int), k ∉ keys t → searchNode t k = none := by
  intro t
  induction t with
  | nil => intro k _; rfl
  | node f p s q l r h ihl ihr =>
      intro k hk
      rw [keys_node] at hk
      simp only [List.mem_append, List.mem_cons, not_or] at hk
      rw [searchNode, if_neg hk.2.1]
      split
      · exact ihl k hk.1
      · exact ihr k hk.2.2

theorem build_inv (L : List (Int × List Nat × Int)) :
    (keys (build L)).Pairwise (· < ·) ∧ hOkB (build L) = true ∧ balB (build L) = true := by
  suffices h : ∀ (M : List (Int × List Nat × Int)) (t : Node),
      (keys t).Pairwise (· < ·) → hOkB t = true → balB t = true →
      (keys (M.foldl (fun t x => (insertAVL t x.1 x.2.1 x.2.2).1) t)).Pairwise (· < ·) ∧
        hOkB (M.foldl (fun t x => (insertAVL t x.1 x.2.1 x.2.2).1) t) = true ∧
        balB (M.foldl (fun t x => (insertAVL t x.1 x.2.1 x.2.2).1) t) = true by
    exact h L .nil (by simp [keys]) rfl rfl
  intro M
  induction M with
  | nil => intro t h1 h2 h3; exact ⟨h1, h2, h3⟩
  | cons x M ih =>
      intro t h1 h2 h3
      obtain ⟨D, E, F, _⟩ := insertAVL_spec x.1 x.2.1 x.2.2 t h1 h2 h3
      exact ih _ (by rw [D]; exact insortK_sorted h1) E F

theorem keysP_node (d : Int) (dst tp : List Nat) (izq der : Pasajero) :
    keysP (.node d dst tp izq der) = keysP izq ++ d :: keysP der := rfl

theorem insertar_dup : ∀ (pt : Pasajero) (k : Int) (d ty : List Nat),
    (keysP pt).Pairwise (· < ·) → k ∈ keysP pt → insertar pt k d ty = (pt, true) := by
  intro pt
  induction pt with
  | nil => intro k d ty _ hk; simp [keysP] at hk
  | node dc dst tp izq der ihl ihr =>
      intro k d ty hs hk
      rw [keysP_node] at hs hk
      obtain ⟨hsl, hsr, hlf, hfr⟩ := pairwise_mid.mp hs
      rcases lt_trichotomy k dc with hkd | hkd | hkd
      · have hkl : k ∈ keysP izq := by
          simp only [List.mem_append, List.mem_cons] at hk
          rcases hk with h | h | h
          · exact h
          · omega
          · exact absurd (hfr k h) (by omega)
        have hrec := ihl k d ty hsl hkl
        simp only [insertar, if_pos hkd, hrec]
      · subst hkd
        simp only [insertar, if_neg (lt_irrefl k)]
      · have hkr : k ∈ keysP der := by
          simp only [List.mem_append, List.mem_cons] at hk
          rcases hk with h | h | h
          · exact absurd (hlf k h) (by omega)
          · omega
          · exact h
        have hrec := ihr k d ty hsr hkr
        simp only [insertar, if_neg (by omega : ¬ k < dc), if_pos hkd, hrec]

theorem cargar_nodo_no_neg1 : ∀ (fuel : Nat) (s : List Nat),
    (-1 : Int) ∉ keys (cargar_nodo fuel s).1 := by
  intro fuel
  induction fuel with
  | zero => intro s; simp [cargar_nodo, keys]
  | succ fuel ih =>
      intro s
      simp only [cargar_nodo]
      split
      · simp [keys]
      · split
        · simp [keys]
        · split
          · simp [keys]
          · split
            · simp [keys]
            · split
              · simp [keys]
              · split
                · simp [keys]
                · have hfecha : ¬ decInt (List.take 4 s) = -1 := by assumption
                  simp only [keys, List.mem_append, List.mem_cons, not_or]
                  exact ⟨ih _, fun h => hfecha h.symm, ih _⟩

theorem lots_node (f : Int) (p : List Nat) (s : Int) (q : List Order)
    (l r : Node) (h : Nat) :
    lots (.node f p s q l r h) = lots l ++ (f, p, s, q) :: lots r := rfl

theorem minValueNode_lots : ∀ t : Node, t ≠ .nil →
    ∃ rest, lots t = (keyD (minValueNode t), prodD (minValueNode t),
      stockD (minValueNode t), ordersD (minValueNode t)) :: rest := by
  intro t
  induction t with
  | nil => intro h; exact absurd rfl h
  | node f p s q l r h ihl ihr =>
      intro _
      rcases l with _ | ⟨fl, pl, sl, ql, ll, lr, hl0⟩
      · exact ⟨lots r, by simp [minValueNode, lots, keyD, prodD, stockD, ordersD]⟩
      · obtain ⟨rest, hrest⟩ := ihl (by simp)
        refine ⟨rest ++ (f, p, s, q) :: lots r, ?_⟩
        rw [lots_node, hrest]
        simp [minValueNode]

theorem updateMin_despachar (d : List Nat) (qty : Int) :
    ∀ (t : Node) (f : Int) (p : List Nat) (s0 : Int) (q : List Order)
      (rest : List (Int × List Nat × Int × List Order)),
      lots t = (f, p, s0, q) :: rest →
      lots (updateMin (despacharLote d qty) t)
        = (f, p, s0 - qty, enqueue_order q d qty) :: rest := by
  intro t
  induction t with
  | nil => intro f p s0 q rest h; simp [lots] at h
  | node f0 p0 s00 q0 l r h0 ihl ihr =>
      intro f p s0 q rest hlots
      rcases l with _ | ⟨fl, pl, sl, ql, ll, lr, hl0⟩
      · rw [lots_node] at hlots
        simp only [lots, List.nil_append, List.cons.injEq, Prod.mk.injEq] at hlots
        obtain ⟨⟨rfl, rfl, rfl, rfl⟩, hrest⟩ := hlots
        simp only [updateMin, despacharLote, lots_node, lots, List.nil_append, hrest]
      · rw [lots_node] at hlots
        rcases hd : lots (Node.node fl pl sl ql ll lr hl0) with _ | ⟨a, tail⟩
        · rw [lots_node] at hd
          exact absurd hd (by simp)
        · rw [hd, List.cons_append] at hlots
          simp only [List.cons.injEq] at hlots
          obtain ⟨rfl, htail⟩ := hlots
          have hrec := ihl f p s0 q tail hd
          have hupd : updateMin (despacharLote d qty)
              (Node.node f0 p0 s00 q0 (Node.node fl pl sl ql ll lr hl0) r h0)
              = Node.node f0 p0 s00 q0
                  (updateMin (despacharLote d qty) (Node.node fl pl sl ql ll lr hl0)) r h0 :=
            rfl
          rw [hupd, lots_node, hrec, ← htail, List.cons_append]

theorem registrar_pedido_nil (destino : List Nat) (qty : Int) :
    registrar_pedido .nil destino qty = (.nil, .sin_inventario) := rfl

theorem registrar_pedido_insuf (t : Node) (destino : List Nat) (qty : Int)
    (ht : t ≠ .nil) (hd : (destino.takeWhile (fun b => b ≠ 0)).length ≠ 0)
    (hq : 0 < qty) (hs : stockD (minValueNode t) < qty) :
    registrar_pedido t destino qty = (t, .stock_insuficiente) := by
  rcases t with _ | ⟨f, p, s, q, l, r, h⟩
  · exact absurd rfl ht
  · simp only [registrar_pedido, if_neg hd, if_neg (by omega : ¬ qty ≤ 0), if_pos hs]

theorem registrar_pedido_ok (t : Node) (destino : List Nat) (qty : Int)
    (ht : t ≠ .nil) (hd : (destino.takeWhile (fun b => b ≠ 0)).length ≠ 0)
    (hq : 0 < qty) (hs : qty ≤ stockD (minValueNode t)) :
    registrar_pedido t destino qty
      = (updateMin (despacharLote destino qty) t, .ok) := by
  rcases t with _ | ⟨f, p, s, q, l, r, h⟩
  · exact absurd rfl ht
  · simp only [registrar_pedido, if_neg hd, if_neg (by omega : ¬ qty ≤ 0),
      if_neg (by omega : ¬ stockD (minValueNode (Node.node f p s q l r h)) < qty)]

theorem cancel_loop_nomatch (destino : List Nat) (cantidad : Int) :
    ∀ (rest done : List Order) (stock : Int) (i : Nat) (tl : Option Nat),
      (∀ o ∈ rest, ¬(o.nombre_destino = destino.takeWhile (fun b => b ≠ 0) ∧
          o.cantidad_solicitada = cantidad)) →
      cancel_loop destino cantidad stock done rest i tl = (stock, done ++ rest, tl, false) := by
  intro rest
  induction rest with
  | nil => intro done stock i tl _; rw [List.append_nil]; rfl
  | cons cur siguiente ih =>
      intro done stock i tl hno
      rw [cancel_loop, if_neg (hno cur (by simp))]
      rw [ih (done ++ [cur]) stock (i + 1) tl (fun o ho => hno o (by simp [ho]))]
      simp [List.append_assoc]

theorem cancel_loop_found (destino : List Nat) (cantidad : Int) (stock : Int) :
    ∀ (q1 done : List Order) (o : Order) (q2 : List Order),
      (∀ o' ∈ q1, ¬(o'.nombre_destino = destino.takeWhile (fun b => b ≠ 0) ∧
          o'.cantidad_solicitada = cantidad)) →
      (o.nombre_destino = destino.takeWhile (fun b => b ≠ 0) ∧
          o.cantidad_solicitada = cantidad) →
      cancel_loop destino cantidad stock done (q1 ++ o :: q2) done.length
          (some (done.length + q1.length + q2.length)) =
        (stock + cantidad, done ++ q1 ++ q2,
          (if done.length + q1.length + q2.length = 0 then none
            else some (done.length + q1.length + q2.length - 1)), true) := by
  intro q1
  induction q1 with
  | nil =>
      intro done o q2 _ ho
      rw [List.nil_append]
      simp only [cancel_loop, if_pos ho, List.length_nil, Nat.add_zero, List.append_nil]
      by_cases hd0 : done.length = 0
      · rw [if_pos hd0]
        by_cases hq2 : q2.length = 0
        · rw [if_pos (by simp only [Option.some.injEq]; omega),
            if_pos (by omega : done.length + q2.length = 0)]
        · rw [if_neg (by simp only [Option.some.injEq]; omega),
            if_neg (by omega : ¬ done.length + q2.length = 0)]
          simp only [Option.map_some']
          rw [if_pos (by omega : done.length < done.length + q2.length)]
      · rw [if_neg hd0]
        by_cases hq2 : q2.length = 0
        · rw [if_pos (by simp only [Option.some.injEq]; omega),
            if_neg (by omega : ¬ done.length + q2.length = 0)]
          simp only [hq2, Nat.add_zero]
        · rw [if_neg (by simp only [Option.some.injEq]; omega),
            if_neg (by omega : ¬ done.length + q2.length = 0)]
          simp only [Option.map_some']
          rw [if_pos (by omega : done.length < done.length + q2.length)]
  | cons o1 q1 ih =>
      intro done o q2 hno ho
      rw [List.cons_append, cancel_loop, if_neg (hno o1 (by simp))]
      have hrec := ih (done ++ [o1]) o q2 (fun o' ho' => hno o' (by simp [ho'])) ho
      simp only [List.length_append, List.length_cons, List.length_nil, Nat.zero_add] at hrec
      have harr : done.length + 1 + q1.length + q2.length
          = done.length + (q1.length + 1) + q2.length := by omega
      rw [harr] at hrec
      simp only [List.length_cons]
      rw [hrec]
      simp [List.append_assoc]

theorem cancel_order_in_node_nomatch (stock : Int) (q : List Order)
    (destino : List Nat) (cantidad : Int) (tl : Option Nat)
    (hno : ∀ o ∈ q, ¬(o.nombre_destino = destino.takeWhile (fun b => b ≠ 0) ∧
        o.cantidad_solicitada = cantidad)) :
    cancel_order_in_node stock q tl destino cantidad = (stock, q, tl, false) := by
  rcases q with _ | ⟨o, q'⟩
  · rfl
  · simp only [cancel_order_in_node]
    rw [cancel_loop_nomatch destino cantidad (o :: q') [] stock 0 tl hno]
    rw [List.nil_append]

theorem cancel_order_in_node_found (stock : Int) (q1 : List Order) (o : Order)
    (q2 : List Order) (destino : List Nat) (cantidad : Int)
    (hno : ∀ o' ∈ q1, ¬(o'.nombre_destino = destino.takeWhile (fun b => b ≠ 0) ∧
        o'.cantidad_solicitada = cantidad))
    (ho : o.nombre_destino = destino.takeWhile (fun b => b ≠ 0) ∧
        o.cantidad_solicitada = cantidad) :
    cancel_order_in_node stock (q1 ++ o :: q2)
        (some ((q1 ++ o :: q2).length - 1)) destino cantidad
      = (stock + cantidad, q1 ++ q2,
          (if (q1 ++ q2).length = 0 then none
            else some ((q1 ++ q2).length - 1)), true) := by
  have h := cancel_loop_found destino cantidad stock q1 [] o q2 hno ho
  simp only [List.length_nil, Nat.zero_add, List.nil_append] at h
  have hlen : (q1 ++ o :: q2).length - 1 = q1.length + q2.length := by
    simp only [List.length_append, List.length_cons]
    omega
  have hlen2 : (q1 ++ q2).length = q1.length + q2.length := by
    simp only [List.length_append]
  rw [hlen, hlen2]
  rcases q1 with _ | ⟨a, q1'⟩
  · simp only [List.nil_append, List.length_nil, Nat.zero_add] at h ⊢
    simp only [cancel_order_in_node]
    exact h
  · simp only [List.cons_append, List.length_cons] at h ⊢
    simp only [cancel_order_in_node]
    exact h

/-! # Claims -/

/-- C2: for every sequence of `insertAVL` calls with pairwise distinct keys
starting from the empty tree, after each insert the in-order traversal of the
resulting tree yields strictly ascending expiry-date keys, every node's height
field equals 1 + max(height(left), height(right)), and every node's balance
factor lies in {-1, 0, 1}. -/
theorem claim2_insert_invariants (L : List (Int × List Nat × Int))
    (hdist : (L.map Prod.fst).Nodup) (n : Nat) :
    (keys (build (L.take n))).Pairwise (· < ·) ∧
    hOkB (build (L.take n)) = true ∧
    bfInRangeB (build (L.take n)) = true := by
  obtain ⟨h1, h2, h3⟩ := build_inv (L.take n)
  exact ⟨h1, h2, by rw [bfInRangeB_eq_balB]; exact h3⟩

theorem claim2_insert_invariants_witness :
    ((([(3, [65], 5), (1, [66], 6), (2, [67], 7)] :
        List (Int × List Nat × Int)).map Prod.fst).Nodup) ∧
    ((keys (build (([(3, [65], 5), (1, [66], 6), (2, [67], 7)] :
        List (Int × List Nat × Int)).take 2))).Pairwise (· < ·) ∧
      hOkB (build (([(3, [65], 5), (1, [66], 6), (2, [67], 7)] :
        List (Int × List Nat × Int)).take 2)) = true ∧
      bfInRangeB (build (([(3, [65], 5), (1, [66], 6), (2, [67], 7)] :
        List (Int × List Nat × Int)).take 2)) = true) :=
  ⟨by decide, claim2_insert_invariants _ (by decide) 2⟩

/-- C3: for every tree built by unique-key inserts and every key k present in
it, after `deleteNode` a `searchNode` for k returns not-found, the key set is
exactly the original minus k, and the tree still satisfies the AVL balance
condition (heights consistent, balance factors in {-1, 0, 1}). -/
theorem claim3_delete (L : List (Int × List Nat × Int))
    (hdist : (L.map Prod.fst).Nodup) (k : Int) (hk : k ∈ keys (build L)) :
    searchNode (deleteNode (build L) k) k = none ∧
    keys (deleteNode (build L) k) = (keys (build L)).erase k ∧
    (∀ j : Int, j ∈ keys (deleteNode (build L) k) ↔ j ∈ keys (build L) ∧ j ≠ k) ∧
    (keys (deleteNode (build L) k)).Pairwise (· < ·) ∧
    hOkB (deleteNode (build L) k) = true ∧
    bfInRangeB (deleteNode (build L) k) = true := by
  obtain ⟨h1, h2, h3⟩ := build_inv L
  obtain ⟨D, E, F, _, _⟩ := deleteNode_spec (build L) h1 h2 h3 k
  have hnd : (keys (build L)).Nodup := h1.imp ne_of_lt
  refine ⟨?_, D, ?_, ?_, E, by rw [bfInRangeB_eq_balB]; exact F⟩
  · apply searchNode_eq_none
    rw [D]
    exact hnd.not_mem_erase
  · intro j
    rw [D, hnd.mem_erase_iff]
    tauto
  · rw [D]
    exact h1.sublist (List.erase_sublist _ _)

theorem claim3_delete_witness :
    ((([(3, [65], 5), (1, [66], 6), (2, [67], 7)] :
        List (Int × List Nat × Int)).map Prod.fst).Nodup) ∧
    (2 : Int) ∈ keys (build [(3, [65], 5), (1, [66], 6), (2, [67], 7)]) ∧
    (searchNode (deleteNode (build [(3, [65], 5), (1, [66], 6), (2, [67], 7)]) 2) 2
        = none ∧
      keys (deleteNode (build [(3, [65], 5), (1, [66], 6), (2, [67], 7)]) 2)
        = (keys (build [(3, [65], 5), (1, [66], 6), (2, [67], 7)])).erase 2 ∧
      (∀ j : Int, j ∈ keys (deleteNode (build [(3, [65], 5), (1, [66], 6), (2, [67], 7)]) 2)
        ↔ j ∈ keys (build [(3, [65], 5), (1, [66], 6), (2, [67], 7)]) ∧ j ≠ 2) ∧
      (keys (deleteNode (build [(3, [65], 5), (1, [66], 6), (2, [67], 7)]) 2)).Pairwise
        (· < ·) ∧
      hOkB (deleteNode (build [(3, [65], 5), (1, [66], 6), (2, [67], 7)]) 2) = true ∧
      bfInRangeB (deleteNode (build [(3, [65], 5), (1, [66], 6), (2, [67], 7)]) 2)
        = true) :=
  ⟨by decide, by decide, claim3_delete _ (by decide) 2 (by decide)⟩

/-- C8: inserting a key that is already present is rejected as a duplicate —
the result flag records the duplicate-key error — and leaves the tree entirely
unchanged: same structure, and the existing node keeps its product, stock and
order queue.  Both for `insertAVL` of distribucion.c (on well-formed AVL
trees) and `insertar` of arbol.c (on BSTs). -/
theorem claim8_duplicate_insert :
    (∀ (t : Node) (k : Int) (p : List Nat) (s : Int),
      (keys t).Pairwise (· < ·) → hOkB t = true → balB t = true → k ∈ keys t →
      insertAVL t k p s = (t, true)) ∧
    (∀ (pt : Pasajero) (k : Int) (d ty : List Nat),
      (keysP pt).Pairwise (· < ·) → k ∈ keysP pt →
      insertar pt k d ty = (pt, true)) := by
  constructor
  · intro t k p s h1 h2 h3 hk
    obtain ⟨_, _, _, _, _, A, B, _⟩ := insertAVL_spec k p s t h1 h2 h3
    rw [Prod.ext_iff]
    exact ⟨B hk, A.mpr hk⟩
  · exact fun pt k d ty hs hk => insertar_dup pt k d ty hs hk

theorem claim8_duplicate_insert_witness :
    insertAVL (build [(3, [65], 5), (1, [66], 6), (2, [67], 7)]) 2 [80] 9
        = (build [(3, [65], 5), (1, [66], 6), (2, [67], 7)], true) ∧
    insertar (.node 5 [70] [71] .nil .nil) 5 [81] [82]
        = (.node 5 [70] [71] .nil .nil, true) :=
  ⟨claim8_duplicate_insert.1 (build [(3, [65], 5), (1, [66], 6), (2, [67], 7)])
      2 [80] 9 (by decide) (by decide) (by decide) (by decide),
    claim8_duplicate_insert.2 (.node 5 [70] [71] .nil .nil) 5 [81] [82]
      (by decide) (by decide)⟩

/-- C10: `insertAVL` applies no validity check to the key — any integer,
including -1, is accepted and inserted; `guardar_arbol` writes a node whose
key is -1 with the same four bytes as the absent-child marker, so after a
save/load round trip of any tree containing a -1-keyed lot, the loaded tree
omits that lot: `cargar_arbol` can never produce a lot with key -1, since it
parses that field as the absent-child sentinel and stops. -/
theorem claim10_neg1_key (t : Node) (ht : (-1 : Int) ∈ keys t) :
    (∀ (k : Int) (p : List Nat) (s : Int),
      (insertAVL .nil k p s).1 = .node k (strncpy63 p) s [] .nil .nil 1 ∧
      (insertAVL .nil k p s).2 = false) ∧
    (∀ (p : List Nat) (s : Int) (q : List Order) (l r : Node) (h : Nat),
      (guardar_nodo (.node (-1) p s q l r h)).take 4 = guardar_nodo .nil) ∧
    (-1 : Int) ∉ keys (cargar_arbol (guardar_arbol t)) := by
  refine ⟨fun k p s => ⟨rfl, rfl⟩, fun p s q l r h => rfl, ?_⟩
  exact cargar_nodo_no_neg1 _ _

set_option maxRecDepth 100000 in
theorem claim10_neg1_key_witness :
    (-1 : Int) ∈ keys (insertAVL .nil (-1) [88] 9).1 ∧
    ((∀ (k : Int) (p : List Nat) (s : Int),
      (insertAVL .nil k p s).1 = .node k (strncpy63 p) s [] .nil .nil 1 ∧
      (insertAVL .nil k p s).2 = false) ∧
    (∀ (p : List Nat) (s : Int) (q : List Order) (l r : Node) (h : Nat),
      (guardar_nodo (.node (-1) p s q l r h)).take 4 = guardar_nodo .nil) ∧
    (-1 : Int) ∉ keys (cargar_arbol (guardar_arbol (insertAVL .nil (-1) [88] 9).1))) :=
  ⟨by decide, claim10_neg1_key (insertAVL .nil (-1) [88] 9).1 (by decide)⟩

/-- C4 as frozen fails on the code: with a single lot of stock 50 and
requested quantity 0, the quantity does not exceed the available stock, yet
the dispatch path rejects it ("La cantidad debe ser positiva") and appends no
order — the tree is returned unchanged. -/
theorem claim4_dispatch_cx :
    ¬ stockD (minValueNode (build [(20250101, [65], 50)])) < 0 ∧
    registrar_pedido (build [(20250101, [65], 50)]) [78] 0
      = (build [(20250101, [65], 50)], DispatchResult.cantidad_invalida) ∧
    lots (registrar_pedido (build [(20250101, [65], 50)]) [78] 0).1
      = lots (build [(20250101, [65], 50)]) := by
  refine ⟨by decide, by decide, by decide⟩

/-- C4 (amended): the dispatch operation resolves the lot with the minimum
expiry-date key; on an empty tree it fails with "no inventory" and changes
nothing; for a nonempty destination and a positive requested quantity, if the
quantity exceeds that lot's available stock it fails with "insufficient
stock" and no lot's stock or queue is mutated, and otherwise it appends
exactly one order (with the given destination and quantity) to that lot's
FIFO queue and decrements that lot's stock by the quantity, with no other
state change.  (Non-positive quantities and empty destinations are rejected
by the code with no mutation, before the stock check.) -/
theorem claim4_dispatch (t : Node) (destino : List Nat) (qty : Int)
    (hd : (destino.takeWhile (fun b => b ≠ 0)).length ≠ 0) (hq : 0 < qty) :
    (registrar_pedido .nil destino qty = (.nil, .sin_inventario)) ∧
    (t ≠ .nil → stockD (minValueNode t) < qty →
      registrar_pedido t destino qty = (t, .stock_insuficiente)) ∧
    (∀ f p s0 q rest, lots t = (f, p, s0, q) :: rest → qty ≤ s0 →
      lots (registrar_pedido t destino qty).1
          = (f, p, s0 - qty, q ++ [⟨strncpy63 destino, qty⟩]) :: rest ∧
      (registrar_pedido t destino qty).2 = .ok) := by
  refine ⟨registrar_pedido_nil destino qty, ?_, ?_⟩
  · intro ht hs
    exact registrar_pedido_insuf t destino qty ht hd hq hs
  · intro f p s0 q rest hlots hqs
    have ht : t ≠ .nil := by
      intro h
      rw [h] at hlots
      simp [lots] at hlots
    obtain ⟨rest', hrest'⟩ := minValueNode_lots t ht
    have hs0 : stockD (minValueNode t) = s0 := by
      rw [hlots] at hrest'
      simp only [List.cons.injEq, Prod.mk.injEq] at hrest'
      omega
    have hok := registrar_pedido_ok t destino qty ht hd hq (by omega)
    rw [hok]
    exact ⟨updateMin_despachar destino qty t f p s0 q rest hlots, rfl⟩

theorem claim4_dispatch_witness :
    (([78] : List Nat).takeWhile (fun b => b ≠ 0)).length ≠ 0 ∧
    (0 : Int) < 20 ∧
    (lots (registrar_pedido (build [(20250101, [65], 50)]) [78] 20).1
        = (20250101, [65], 50 - 20, [] ++ [⟨strncpy63 [78], 20⟩]) :: [] ∧
      (registrar_pedido (build [(20250101, [65], 50)]) [78] 20).2
        = DispatchResult.ok) :=
  ⟨by decide, by decide,
    (claim4_dispatch (build [(20250101, [65], 50)]) [78] 20 (by decide)
        (by decide)).2.2 20250101 [65] 50 [] [] (by decide) (by decide)⟩

/-- C7: `cancel_order_in_node` removes at most one order — the first element
in head-to-tail order whose destination and quantity both match exactly —
adds the removed quantity back to the lot's stock, fixes the head of the
queue and the tail pointer (the tail index again designates the last cell:
cleared when the removed order was the only one, moved to the predecessor
when it was the last), and returns a found/not-found flag; when no order
matches, queue, stock and tail are unchanged and not-found is returned. -/
theorem claim7_cancel (stock : Int) (destino : List Nat) (cantidad : Int) :
    (∀ (q : List Order) (tl : Option Nat),
      (∀ o ∈ q, ¬(o.nombre_destino = destino.takeWhile (fun b => b ≠ 0) ∧
          o.cantidad_solicitada = cantidad)) →
      cancel_order_in_node stock q tl destino cantidad = (stock, q, tl, false)) ∧
    (∀ (q1 : List Order) (o : Order) (q2 : List Order),
      (∀ o' ∈ q1, ¬(o'.nombre_destino = destino.takeWhile (fun b => b ≠ 0) ∧
          o'.cantidad_solicitada = cantidad)) →
      (o.nombre_destino = destino.takeWhile (fun b => b ≠ 0) ∧
          o.cantidad_solicitada = cantidad) →
      cancel_order_in_node stock (q1 ++ o :: q2)
          (some ((q1 ++ o :: q2).length - 1)) destino cantidad
        = (stock + cantidad, q1 ++ q2,
            (if (q1 ++ q2).length = 0 then none
              else some ((q1 ++ q2).length - 1)), true)) :=
  ⟨fun q tl hno => cancel_order_in_node_nomatch stock q destino cantidad tl hno,
    fun q1 o q2 hno ho =>
      cancel_order_in_node_found stock q1 o q2 destino cantidad hno ho⟩

theorem claim7_cancel_witness :
    cancel_order_in_node 10 [⟨[79], 5⟩, ⟨[78], 5⟩] (some 1) [78] 5
        = (10 + 5, [⟨[79], 5⟩], some 0, true) ∧
    cancel_order_in_node 10 [⟨[79], 5⟩] (some 0) [80] 5
        = (10, [⟨[79], 5⟩], some 0, false) := by
  constructor
  · have h := (claim7_cancel 10 [78] 5).2 [⟨[79], 5⟩] ⟨[78], 5⟩ []
      (by decide) (by decide)
    simpa using h
  · exact (claim7_cancel 10 [80] 5).1 [⟨[79], 5⟩] (some 0) (by decide)

set_option maxRecDepth 400000 in
/-- C1 fails on the code (evaluated at a failing run): insert lot 20250101
with stock 50, dispatch 30 units to destination "N" (stock becomes 20, one
pending order), save, load.  Keys, product and queue round-trip, but the
loaded stock is -10, not 20: `guardar_arbol` writes the already-net stock and
`cargar_arbol` subtracts every pending order's quantity from it again. -/
theorem claim1_roundtrip_bug :
    (registrar_pedido (build [(20250101, [65], 50)]) [78] 30).1
        = .node 20250101 [65] 20 [⟨[78], 30⟩] .nil .nil 1 ∧
    cargar_arbol (guardar_arbol
        (registrar_pedido (build [(20250101, [65], 50)]) [78] 30).1)
        = .node 20250101 [65] (-10) [⟨[78], 30⟩] .nil .nil 1 ∧
    cargar_arbol (guardar_arbol
        (registrar_pedido (build [(20250101, [65], 50)]) [78] 30).1)
      ≠ (registrar_pedido (build [(20250101, [65], 50)]) [78] 30).1 := by
  refine ⟨by decide, by decide, by decide⟩

set_option maxRecDepth 400000 in
/-- C5 fails on the code (evaluated at a failing input): save a two-lot tree
(164 bytes) and truncate the file to its first 80 bytes — the root's record
plus the left-child sentinel.  `cargar_arbol` does not abort: the failed read
of the right child is indistinguishable from an absent-child marker, so the
load silently returns a half-built tree containing only the root, instead of
an empty/failed result. -/
theorem claim5_truncated_load :
    (guardar_arbol (build [(20250101, [65], 5), (20250202, [66], 7)])).length
        = 164 ∧
    build [(20250101, [65], 5), (20250202, [66], 7)]
        = .node 20250101 [65] 5 [] .nil (.node 20250202 [66] 7 [] .nil .nil 1) 2 ∧
    cargar_arbol ((guardar_arbol
        (build [(20250101, [65], 5), (20250202, [66], 7)])).take 80)
        = .node 20250101 [65] 5 [] .nil .nil 1 ∧
    cargar_arbol ((guardar_arbol
        (build [(20250101, [65], 5), (20250202, [66], 7)])).take 80) ≠ .nil := by
  refine ⟨by decide, by decide, by decide, by decide⟩

set_option maxRecDepth 400000 in
/-- C6 fails on the code (evaluated at a failing run): after insert (stock
50), dispatch of 30 (stock 20) and a save/load round trip, the loaded lot's
`stock_total` is -10 — the load path drives the stock negative with no
rejection. -/
theorem claim6_negative_stock_after_load :
    stockD (cargar_arbol (guardar_arbol
        (registrar_pedido (build [(20250101, [65], 50)]) [78] 30).1)) = -10 ∧
    stockD (cargar_arbol (guardar_arbol
        (registrar_pedido (build [(20250101, [65], 50)]) [78] 30).1)) < 0 := by
  refine ⟨by decide, by decide⟩

/-- C9 fails on the code (evaluated at a failing input): build lots 1, 2, 3
(root 2 with two children) and give the root one pending order; deleting key
2 passes the root's queue pointer to `free_orders` twice — once at line 527
and again, already freed, at line 569 — before cloning the successor's (empty)
queue.  The trace lists, in order, every queue pointer the found node's
`free_orders` calls receive: the same non-empty queue appears twice. -/
theorem claim9_double_free :
    deleteNodeFrees
        ((insertAVL ((insertAVL
            ((registrar_pedido (build [(2, [65], 10)]) [78] 3).1)
            1 [66] 10).1) 3 [67] 10).1) 2
      = [[⟨[78], 3⟩], [⟨[78], 3⟩], []] ∧
    ([⟨[78], 3⟩] : List Order) ≠ [] ∧
    keys (deleteNode
        ((insertAVL ((insertAVL
            ((registrar_pedido (build [(2, [65], 10)]) [78] 3).1)
            1 [66] 10).1) 3 [67] 10).1) 2)
      = [1, 3] := by
  refine ⟨by decide, by decide, by decide⟩
